import Mathlib

/-!
# Verification of the fiber-autopilot decision engine

Shallow embedding of the core algorithms of the `fiber-autopilot`
repository, together with theorems settling the frozen claims about it.

Embedding conventions:
* `u128` / `usize` are modelled as `ℕ` (all arithmetic in scope is
  subtraction-guarded, so no wrap-around occurs on the modelled paths);
* `f64` is modelled as `ℚ` (the numeric claims in scope are order and
  structure claims on exactly-representable values);
* a Rust `panic!` / failed `assert!` / `.unwrap()` on `Err` is modelled as
  a distinguished failure value (`none`, or `GetOutcome.panic`) — the
  source functions in question do not return typed errors;
* `PeerId::from_public_key` is an injective conversion between the two
  identity types; both are modelled as `ℕ` and the conversion as the
  identity;
* randomness is modelled by an oracle `rng : ℕ → ℕ`: at the `t`-th draw the
  weighted index sampler picks the `rng t % k`-th of the `k` indices that
  currently carry positive weight (a `WeightedIndex` never yields a
  zero-weight index while the total weight is positive, and errors on a
  non-positive total). Theorems quantify over all oracles.
-/

namespace Autopilot

/-! ## WeightedSampler — `choice_n` (src/utils.rs)

```rust
pub fn choice_n<T: Clone>(items: Vec<(T, f64)>, n: usize) -> Vec<(T, f64)> {
    if items.len() < n { return items; }
    let mut rng = rand::rng();
    let mut dist = WeightedIndex::new(items.iter().map(|item| item.1)).unwrap();
    let mut samples = Vec::default();
    while samples.len() < n {
        let i = dist.sample(&mut rng);
        dist.update_weights(&[(i, &0.0)]).unwrap();
        samples.push(items[i].clone());
    }
    samples
}
```

`WeightedIndex::new` errors (so the `.unwrap()` panics) on an empty list,
on a negative weight, or on a non-positive total weight.
`update_weights` errors (so the `.unwrap()` panics) when the updated total
weight is not positive.  `sample` returns an index carrying positive
weight.  A panic is modelled as `none`. -/

/-- Indices of the entries of `w` that currently carry positive weight. -/
def posIdxs (w : List ℚ) : List ℕ :=
  (List.range w.length).filter (fun i => decide (0 < w.getD i 0))

/-- The sampling loop of `choice_n`: draw `k` more indices, zeroing each
drawn index's weight.  `t` is the draw counter fed to the oracle.
`none` models the panic of `update_weights(..).unwrap()` when the total
weight would become zero (the `posIdxs w = []` branch models sampling from
a zero total and is unreachable under the constructor's checks). -/
def drawLoop (rng : ℕ → ℕ) : ℕ → List ℚ → ℕ → Option (List ℕ)
  | 0, _, _ => some []
  | k+1, w, t =>
    let pos := posIdxs w
    if pos.length = 0 then none
    else
      let i := pos.getD (rng t % pos.length) 0
      let wNew := w.set i 0
      if wNew.sum ≤ 0 then none
      else (drawLoop rng k wNew (t+1)).map (fun is => i :: is)

/-- The `choice_n` from `src/utils.rs`.  `none` models a panic of one of the
two `.unwrap()` calls. -/
def choice_n {α : Type} [Inhabited α] (rng : ℕ → ℕ)
    (items : List (α × ℚ)) (n : ℕ) : Option (List (α × ℚ)) :=
  if items.length < n then some items
  else if items.isEmpty then none
  else if items.any (fun it => decide (it.2 < 0)) then none
  else if (items.map Prod.snd).sum ≤ 0 then none
  else (drawLoop rng n (items.map Prod.snd) 0).map
    (fun is => is.map (fun i => items.getD i default))

/-! ## TopologyGraph — `Graph::build` / `compute_edges` (src/graph.rs)

Nodes are represented by their `node_id` (`Pubkey`, modelled as `ℕ`);
channels by their `(node1, node2)` endpoint pair (capacity and the other
fields play no role in adjacency construction).

```rust
fn compute_edges(nodes: &[NodeInfo], channels: &[ChannelInfo]) -> Vec<Vec<usize>> {
    let node_to_idx: HashMap<Pubkey, usize> = ...;   // last index wins on duplicates
    let mut node_channels: Vec<Vec<usize>> = vec![Vec::new(); nodes.len()];
    let mut skip_channel_num = 0;
    'channel: for (c_idx, c) in channels.iter().enumerate() {
        for n in [&c.node1, &c.node2] {
            if !node_to_idx.contains_key(n) { skip_channel_num += 1; continue 'channel; }
        }
        for n in [&c.node1, &c.node2] { node_channels[node_to_idx[n]].push(c_idx); }
    }
    let mut edges = vec![Vec::new(); nodes.len()];
    for (n_idx, _node) in nodes.iter().enumerate() {
        for c_idx in &node_channels[n_idx] {
            let c = &channels[*c_idx];
            let n1 = node_to_idx[&c.node1]; let n2 = node_to_idx[&c.node2];
            edges[n_idx].push(if n_idx == n1 { n2 } else { n1 });
        }
    }
    edges
}
```
-/

/-- The `node_to_idx` map: collecting `(node_id, index)` pairs into a
`HashMap` keeps, for a duplicated id, the last index inserted. -/
def nodeToIdx (nodes : List ℕ) (k : ℕ) : Option ℕ :=
  ((List.range nodes.length).filter (fun i => nodes.getD i 0 == k)).getLast?

/-- A channel both of whose endpoints occur in the node list. -/
def validChannel (nodes : List ℕ) (c : ℕ × ℕ) : Bool :=
  (nodeToIdx nodes c.1).isSome && (nodeToIdx nodes c.2).isSome

/-- One step of the `'channel` loop: a channel with a missing endpoint
contributes nothing and bumps the skip counter; otherwise its index is
pushed at both endpoints. -/
def computeEdgesStep (nodes : List ℕ) (acc : List (List ℕ) × ℕ)
    (ci : ℕ × (ℕ × ℕ)) : List (List ℕ) × ℕ :=
  match nodeToIdx nodes ci.2.1, nodeToIdx nodes ci.2.2 with
  | some i1, some i2 =>
    let nc1 := acc.1.set i1 ((acc.1.getD i1 []) ++ [ci.1])
    let nc2 := nc1.set i2 ((nc1.getD i2 []) ++ [ci.1])
    (nc2, acc.2)
  | _, _ => (acc.1, acc.2 + 1)

/-- Result of `compute_edges`: the intermediate per-node channel lists,
the adjacency lists, and the (logged) skip counter. -/
structure EdgesResult where
  nodeChannels : List (List ℕ)
  edges : List (List ℕ)
  skipped : ℕ
deriving DecidableEq

/-- The `compute_edges` from `src/graph.rs`. -/
def compute_edges (nodes : List ℕ) (channels : List (ℕ × ℕ)) : EdgesResult :=
  let start : List (List ℕ) × ℕ := (List.replicate nodes.length [], 0)
  let folded := channels.enum.foldl (computeEdgesStep nodes) start
  let edges := (List.range nodes.length).map (fun nIdx =>
    (folded.1.getD nIdx []).map (fun cIdx =>
      let c := channels.getD cIdx (0, 0)
      let n1 := (nodeToIdx nodes c.1).getD 0
      let n2 := (nodeToIdx nodes c.2).getD 0
      if nIdx = n1 then n2 else n1))
  ⟨folded.1, edges, folded.2⟩

/-- The `Graph::build` keeps the snapshot and the derived adjacency. -/
structure Graph where
  nodes : List ℕ
  channels : List (ℕ × ℕ)
  edges : List (List ℕ)
deriving DecidableEq

/-- The `Graph::build` from `src/graph.rs`. -/
def Graph.build (nodes : List ℕ) (channels : List (ℕ × ℕ)) : Graph :=
  ⟨nodes, channels, (compute_edges nodes channels).edges⟩

/-! ## CentralityScorer — Brandes betweenness (src/heuristics/centrality.rs)

```rust
fn centrality(nodes: &[NodeInfo], edges: &[Vec<usize>], s: usize) -> Vec<f64> {
    let mut centrality: Vec<f64> = vec![0.0; nodes.len()];
    let mut dist: Vec<i32> = vec![-1; nodes.len()];
    let mut pred: Vec<Vec<usize>> = vec![Vec::default(); nodes.len()];
    let mut sigma: Vec<usize> = vec![0; nodes.len()];
    let mut queue = VecDeque::default();
    let mut stack = VecDeque::default();
    queue.push_back(s);
    dist.insert(s, 0);          // Vec::insert — shifts the tail, len becomes n+1
    sigma[s] = 1;
    while let Some(v) = queue.pop_front() {
        stack.push_back(v);
        for w in edges[v].clone() {
            if dist[w] == -1 { dist[w] = dist[v] + 1; queue.push_back(w); }
            if dist[w] == dist[v] + 1 { sigma[w] += sigma[v]; pred[w].push(v); }
        }
    }
    let mut delta: Vec<f64> = vec![0.0; nodes.len()];
    while let Some(w) = stack.pop_back() {
        for v in pred[w].clone() {
            delta[v] += (sigma[v] as f64 / sigma[w] as f64) * (1.0 + delta[w]);
        }
        if w != s { centrality[w] += delta[w]; }
    }
    centrality
}
```

The BFS loop is given fuel `n + 1`; `bfsLoop` returning `none` models
failure: either the `edges[v]` indexing panic when the popped node `v`
is out of range of the adjacency structure, or non-termination within
the fuel bound (both proved unreachable for length-`n` in-range inputs,
see `C10_theorem`).  `nodes` enters only through its length. -/

/-- State of the breadth-first phase. -/
structure BfsState where
  queue : List ℕ
  stack : List ℕ
  dist : List ℤ
  sigma : List ℕ
  pred : List (List ℕ)
deriving DecidableEq

/-- The discovery branch (`if dist[w] == -1`) of the inner loop. -/
def relaxDiscover (v : ℕ) (st : BfsState) (w : ℕ) : BfsState :=
  if st.dist.getD w 0 = -1 then
    { st with dist := st.dist.set w (st.dist.getD v 0 + 1),
              queue := st.queue ++ [w] }
  else st

/-- The shortest-path-counting branch (`if dist[w] == dist[v] + 1`),
run on the state the discovery branch may have updated. -/
def relaxCount (v : ℕ) (st1 : BfsState) (w : ℕ) : BfsState :=
  if st1.dist.getD w 0 = st1.dist.getD v 0 + 1 then
    { st1 with sigma := st1.sigma.set w (st1.sigma.getD w 0 + st1.sigma.getD v 0),
               pred := st1.pred.set w ((st1.pred.getD w []) ++ [v]) }
  else st1

/-- One iteration of the inner `for w in edges[v]` loop: the two
sequential branches of the source, in order. -/
def relaxStep (v : ℕ) (st : BfsState) (w : ℕ) : BfsState :=
  relaxCount v (relaxDiscover v st w) w

/-- The inner `for w in edges[v]` relaxation loop of one popped node.
`bfsLoop` only invokes this after checking `v < edges.length`, so the
`getD` here reads the genuine entry `edges[v]`. -/
def relaxNeighbors (edges : List (List ℕ)) (v : ℕ) (st : BfsState) : BfsState :=
  (edges.getD v []).foldl (relaxStep v) st

/-- The `while let Some(v) = queue.pop_front()` loop, with explicit fuel.
The source indexes `edges[v]` on the popped node, which panics when
`v >= edges.len()`; that panic is modelled by returning `none`. -/
def bfsLoop (edges : List (List ℕ)) : ℕ → BfsState → Option BfsState
  | fuel, st =>
    match st.queue with
    | [] => some st
    | v :: rest =>
      if edges.length ≤ v then none
      else
        match fuel with
        | 0 => none
        | fuel + 1 =>
          bfsLoop edges fuel
            (relaxNeighbors edges v { st with queue := rest, stack := st.stack ++ [v] })

/-- Initial BFS state: note the source's `dist.insert(s, 0)` is
`Vec::insert`, which shifts the tail (all `-1`s) and grows `dist` to
length `n + 1`. -/
def initState (n : ℕ) (s : ℕ) : BfsState :=
  { queue := [s]
    stack := []
    dist := List.insertIdx s 0 (List.replicate n (-1))
    sigma := (List.replicate n 0).set s 1
    pred := List.replicate n [] }

/-- One pop of the dependency-accumulation stack: fold over `pred[w]`
updating `delta`, then (for `w ≠ s`) add `delta[w]` into the centrality
accumulator.  `f64` division is modelled by `ℚ` division (`x / 0 = 0`
here; in the source `sigma[w]` is positive for every stacked node). -/
def accumStep (sigma : List ℕ) (pred : List (List ℕ)) (s : ℕ)
    (acc : List ℚ × List ℚ) (w : ℕ) : List ℚ × List ℚ :=
  let delta := (pred.getD w []).foldl (fun d v =>
    d.set v (d.getD v 0 +
      ((sigma.getD v 0 : ℚ) / (sigma.getD w 0 : ℚ)) * (1 + d.getD w 0))) acc.1
  let cent := if w ≠ s then acc.2.set w (acc.2.getD w 0 + delta.getD w 0) else acc.2
  (delta, cent)

/-- The `centrality` from `src/heuristics/centrality.rs` (single source `s`).
The stack is popped from the back, i.e. processed in reverse push order. -/
def centrality (n : ℕ) (edges : List (List ℕ)) (s : ℕ) : Option (List ℚ) :=
  (bfsLoop edges (n + 1) (initState n s)).map (fun st =>
    (st.stack.reverse.foldl (accumStep st.sigma st.pred s)
      (List.replicate n 0, List.replicate n 0)).2)

/-- The `BetweennessCentrality`: per-node (halved) centrality keyed by node
id, with the halved extrema of the aggregated values. -/
structure BetweennessCentrality where
  centrality : List (ℕ × ℚ)
  min : ℚ
  max : ℚ
deriving DecidableEq

/-- The `BetweennessCentrality::build`: run `centrality` for every source,
sum the partial vectors element-wise, track min/max over the aggregate
(both initialised to `0.0`), then halve everything.  `none` propagates a
fuel-exhausted single-source run (unreachable for graph-derived edges). -/
def BetweennessCentrality.build (g : Graph) : Option BetweennessCentrality :=
  ((List.range g.nodes.length).mapM (fun s => Autopilot.centrality g.nodes.length g.edges s)).map
    (fun partials =>
      let agg := partials.foldl (fun acc p => List.zipWith (· + ·) acc p)
        (List.replicate g.nodes.length 0)
      let mm := agg.foldl (fun (mm : ℚ × ℚ) v =>
        ((if v < mm.1 then v else mm.1), (if mm.2 < v then v else mm.2))) (0, 0)
      { centrality := agg.enum.map (fun ic => (g.nodes.getD ic.1 0, ic.2 * (1 / 2)))
        min := mm.1 * (1 / 2)
        max := mm.2 * (1 / 2) })

/-- Outcome of a call that either panics or returns a value: the source
`get` has no error variant — its only failure mode is the
`assert!(self.max - self.min > 0.0)` panic. -/
inductive GetOutcome (α : Type) where
  | panic
  | ok (val : α)
deriving DecidableEq

/-- The `BetweennessCentrality::get`: asserts `max - min > 0.0` (modelled as
`GetOutcome.panic` when the assertion fails) and optionally normalizes
every value by `z = 1 / (max - min)`. -/
def BetweennessCentrality.get (bc : BetweennessCentrality) (normalize : Bool) :
    GetOutcome (List (ℕ × ℚ)) :=
  if 0 < bc.max - bc.min then
    GetOutcome.ok (bc.centrality.map (fun kv =>
      (kv.1, if normalize then (kv.2 - bc.min) * (1 / (bc.max - bc.min)) else kv.2)))
  else GetOutcome.panic

/-- The claimed pipeline: `Graph::build`, then
`BetweennessCentrality::build`, then `get`. -/
def buildGet (nodes : List ℕ) (channels : List (ℕ × ℕ)) (normalize : Bool) :
    Option (GetOutcome (List (ℕ × ℚ))) :=
  (BetweennessCentrality.build (Graph.build nodes channels)).map
    (fun bc => bc.get normalize)

/-- Every index of a nonnegative rational vector reads nonnegative
(out-of-range reads give the default `0`). -/
def NonnegL (l : List ℚ) : Prop := ∀ i : ℕ, 0 ≤ l.getD i 0

/-- The BFS loop invariant: `dist` has its post-`Vec::insert` length
`n + 1`, every distance is at least `-1`, and every queued node index is
in range. -/
def BfsOk (n : ℕ) (st : BfsState) : Prop :=
  st.dist.length = n + 1 ∧ (∀ i : ℕ, -1 ≤ st.dist.getD i 0) ∧
    ∀ v ∈ st.queue, v < n

/-! ## AutopilotController — `Agent::open_channels` (src/agent.rs)

The embedding takes the per-cycle inputs of `open_channels` directly:
the available funds, the slot count `num`, the graph snapshot's node
records (which `Graph::build` stores verbatim), and the local channel
list.  `Pubkey` and `PeerId` are both `ℕ` (the conversion
`PeerId::from_public_key` is injective and modelled as the identity).
The combined heuristic output (`crate::heuristics::get_node_scores`) is
abstracted by an oracle `score : ℕ → ℚ` — per its contract it returns
exactly one entry per requested peer.  The asynchronous connect/open
outcome of each spawned action is abstracted by `failOf : ℕ → Bool`
(`true` = the action failed, so the resolution loop removes the peer
from the pending set).  A `choice_n` panic propagates as
`OpenChannelsResult.panic`. -/

/-- The `TokenType` from src/config.rs (UDT scripts modelled as `ℕ`). -/
inductive TokenType where
  | ckb
  | udt (script : ℕ)
deriving DecidableEq

instance : Inhabited TokenType := ⟨TokenType.ckb⟩

/-- The `TokenType::is_token` from src/config.rs. -/
def TokenType.is_token : TokenType → Option ℕ → Bool
  | .ckb, none => true
  | .udt s, some u => decide (s = u)
  | .ckb, some _ => false
  | .udt _, none => false

/-- A multiaddr, modelled abstractly: an opaque tag plus the peer id its
`/p2p/` component decodes to, if any. -/
structure MultiAddr where
  raw : ℕ
  peer : Option ℕ
deriving DecidableEq

/-- The `get_peer_id_from_addr` from src/utils.rs (the `/p2p/` component
extraction, abstracted via the `peer` field of the modelled address). -/
def get_peer_id_from_addr (a : MultiAddr) : Option ℕ := a.peer

/-- The fields of `NodeInfo` that `open_channels` consumes. -/
structure NodeInfo where
  nodeId : ℕ
  addresses : List MultiAddr
  autoAcceptMinCkbFundingAmount : ℕ
  udtCfgInfos : List (ℕ × Option ℕ)
deriving DecidableEq

/-- The fields of a local `Channel` that `open_channels` consumes. -/
structure Channel where
  peerId : ℕ
  fundingUdtTypeScript : Option ℕ
deriving DecidableEq

/-- The `AgentConfig` from src/config.rs (the fields `open_channels` reads). -/
structure AgentConfig where
  token : TokenType
  external_nodes : List MultiAddr
  max_pending : ℕ
  min_chan_funds : ℕ
  max_chan_funds : ℕ
deriving DecidableEq

/-- The `get_min_funding_amount` from src/agent.rs: for the native asset the
node-level minimum; for a UDT, the first configured token whose script
matches and carries an amount (`find_map` keeps searching past a matching
script with `auto_accept_amount == None`). -/
def get_min_funding_amount (token : TokenType) (node : NodeInfo) : Option ℕ :=
  match token with
  | .ckb => some node.autoAcceptMinCkbFundingAmount
  | .udt _ => node.udtCfgInfos.findSome? (fun cfg =>
      if token.is_token (some cfg.1) then cfg.2 else none)

/-- The `OpenChannelCmd` from src/agent.rs. -/
structure OpenChannelCmd where
  peer : ℕ
  funds : ℕ
  token : TokenType
  addresses : List MultiAddr
deriving DecidableEq

instance : Inhabited OpenChannelCmd := ⟨⟨0, 0, TokenType.ckb, []⟩⟩

/-- The reconciliation prologue: every peer with a local channel is
removed from the pending set (any asset type). -/
def reconcile (pending : Finset ℕ) (locals : List Channel) : Finset ℕ :=
  locals.foldl (fun pd c => pd.erase c.peerId) pending

/-- The ignore set: peers with a same-asset-type local channel, every
still-pending peer, and the self identity. -/
def ignoredSet (cfg : AgentConfig) (selfId : ℕ) (pending : Finset ℕ)
    (locals : List Channel) : Finset ℕ :=
  ((locals.filter (fun c => cfg.token.is_token c.fundingUdtTypeScript)).map
    Channel.peerId).toFinset ∪ pending ∪ {selfId}

/-- The per-node candidate filter of the graph loop: not ignored, at
least one known address, and an advertised minimum funding amount for the
configured asset type at or below `chan_funds`. -/
def eligibleNode (cfg : AgentConfig) (ignored : Finset ℕ) (chan_funds : ℕ)
    (node : NodeInfo) : Bool :=
  decide (node.nodeId ∉ ignored) && !node.addresses.isEmpty &&
    (match get_min_funding_amount cfg.token node with
     | none => false
     | some m => decide (m ≤ chan_funds))

/-- The candidate peer set collected by the graph loop (a `HashSet` in
the source; deduplicated, here in first-occurrence order). -/
def candidatePeers (cfg : AgentConfig) (ignored : Finset ℕ) (chan_funds : ℕ)
    (graphNodes : List NodeInfo) : List ℕ :=
  ((graphNodes.filter (eligibleNode cfg ignored chan_funds)).map
    NodeInfo.nodeId).dedup

/-- The address book collected by the graph loop: each eligible node's
addresses, accumulated per peer id (`entry(..).or_default().extend(..)`). -/
def graphAddresses (cfg : AgentConfig) (ignored : Finset ℕ) (chan_funds : ℕ)
    (graphNodes : List NodeInfo) (p : ℕ) : List MultiAddr :=
  (((graphNodes.filter (eligibleNode cfg ignored chan_funds)).filter
    (fun nd => nd.nodeId = p)).map NodeInfo.addresses).flatten

/-- The external-node pass: each configured address that decodes to a
peer id not in the ignore set pushes a score entry of `1.0` and
*replaces* that peer's address list (`HashMap::insert`). -/
def addExternals (ignored : Finset ℕ) (exts : List MultiAddr)
    (start : List (ℕ × ℚ) × (ℕ → List MultiAddr)) :
    List (ℕ × ℚ) × (ℕ → List MultiAddr) :=
  exts.foldl (fun acc a =>
    match get_peer_id_from_addr a with
    | none => acc
    | some p =>
      if p ∈ ignored then acc
      else (acc.1 ++ [(p, 1)], fun q => if q = p then [a] else acc.2 q)) start

/-- The full scored candidate list and address book of one cycle. -/
def scoresAndAddrs (cfg : AgentConfig) (ignored : Finset ℕ) (chan_funds : ℕ)
    (graphNodes : List NodeInfo) (score : ℕ → ℚ) :
    List (ℕ × ℚ) × (ℕ → List MultiAddr) :=
  addExternals ignored cfg.external_nodes
    ((candidatePeers cfg ignored chan_funds graphNodes).map (fun p => (p, score p)),
     graphAddresses cfg ignored chan_funds graphNodes)

/-- The greedy funding loop over the sampled peers: each receives
`available_funds.min(chan_funds)`, the budget is decremented, and the
loop breaks the moment the next allocation would fall below
`min_chan_funds` (the decrement still happened; the loop then exits). -/
def allocate (min_chan_funds chan_funds : ℕ) (token : TokenType)
    (addrs : ℕ → List MultiAddr) : ℕ → List (ℕ × ℚ) → List OpenChannelCmd
  | _, [] => []
  | avail, (p, _) :: rest =>
    let f := min avail chan_funds
    if f < min_chan_funds then []
    else ⟨p, f, token, addrs p⟩ ::
      allocate min_chan_funds chan_funds token addrs (avail - f) rest

/-- One step of the spawn loop: a command whose peer is already pending
is skipped; otherwise the peer is marked pending and the action spawned. -/
def spawnStep (acc : Finset ℕ × List OpenChannelCmd) (cmd : OpenChannelCmd) :
    Finset ℕ × List OpenChannelCmd :=
  if cmd.peer ∈ acc.1 then acc
  else (insert cmd.peer acc.1, acc.2 ++ [cmd])

/-- The spawn loop of one cycle. -/
def spawnCmds (pending : Finset ℕ) (cmds : List OpenChannelCmd) :
    Finset ℕ × List OpenChannelCmd :=
  cmds.foldl spawnStep (pending, [])

/-- The resolution loop: a failed action removes its peer from the
pending set; a successful one leaves it pending until a later cycle
confirms it. -/
def resolveCmds (failOf : ℕ → Bool) (pending : Finset ℕ)
    (spawned : List OpenChannelCmd) : Finset ℕ :=
  spawned.foldl (fun pd cmd => if failOf cmd.peer then pd.erase cmd.peer else pd)
    pending

/-- Outcome of one `open_channels` cycle.  `panic` models the `choice_n`
unwrap panic propagating; `insufficientFunds` models the `bail!`; the
early return on a full pending set is `done` with no commands. -/
inductive OpenChannelsResult where
  | panic
  | insufficientFunds (pending : Finset ℕ)
  | done (pending : Finset ℕ) (cmds : List OpenChannelCmd)
      (spawned : List OpenChannelCmd)
deriving DecidableEq

/-- The `Agent::open_channels` from src/agent.rs. -/
def open_channels (cfg : AgentConfig) (selfId : ℕ) (pending : Finset ℕ)
    (rng : ℕ → ℕ) (score : ℕ → ℚ) (failOf : ℕ → Bool)
    (available_funds : ℕ) (num : ℕ)
    (graphNodes : List NodeInfo) (local_channels : List Channel) :
    OpenChannelsResult :=
  let pending1 := reconcile pending local_channels
  let chan_funds := min cfg.max_chan_funds available_funds
  if chan_funds < cfg.min_chan_funds then
    OpenChannelsResult.insufficientFunds pending1
  else if cfg.max_pending ≤ pending1.card then
    OpenChannelsResult.done pending1 [] []
  else
    let num2 := min num (cfg.max_pending - pending1.card)
    let ignored := ignoredSet cfg selfId pending1 local_channels
    let sa := scoresAndAddrs cfg ignored chan_funds graphNodes score
    match choice_n rng sa.1 num2 with
    | none => OpenChannelsResult.panic
    | some chosen =>
      let cmds := allocate cfg.min_chan_funds chan_funds cfg.token sa.2
        available_funds chosen
      let ps := spawnCmds pending1 cmds
      OpenChannelsResult.done (resolveCmds failOf ps.1 ps.2) cmds ps.2

/-- The 4-entry concrete scenario for C9: peer 1 is both a graph
candidate and the lone external node. -/
def cfg9 : AgentConfig := ⟨TokenType.ckb, [⟨100, some 1⟩], 10, 5, 10⟩

/-- The graph snapshot of the C9 scenario. -/
def nodes9 : List NodeInfo :=
  [⟨1, [⟨11, none⟩], 0, []⟩, ⟨2, [⟨12, none⟩], 0, []⟩, ⟨3, [⟨13, none⟩], 0, []⟩]

/-- The draw oracle of the C9 scenario: first draw index 0, then (of the
three remaining positive indices) the last — both are entries of peer 1. -/
def rng9 : ℕ → ℕ := fun t => if t = 0 then 0 else 2

/-! ## Theorems -/

/-- A fold preserves any invariant preserved by each step. -/
theorem foldl_preserves {α β : Type} {P : β → Prop} (f : β → α → β)
    (hf : ∀ b a, P b → P (f b a)) :
    ∀ (l : List α) (b : β), P b → P (l.foldl f b) := by
  intro l
  induction l with
  | nil => intro b hb; simpa using hb
  | cons x xs ih => intro b hb; exact ih (f b x) (hf b x hb)

/-- The `getD` after `set` at the written index. -/
theorem getD_set_self {α : Type} (l : List α) (i : ℕ) (a d : α)
    (h : i < l.length) : (l.set i a).getD i d = a := by
  simp [List.getD_eq_getElem?_getD, List.getElem?_set_self, h]

/-- The `getD` after `set` at a different index. -/
theorem getD_set_ne {α : Type} (l : List α) {i j : ℕ} (a d : α)
    (h : i ≠ j) : (l.set i a).getD j d = l.getD j d := by
  simp [List.getD_eq_getElem?_getD, List.getElem?_set_ne h]

/-- A list of nonnegative entries with a positive member has positive sum. -/
theorem sum_pos_of_mem {l : List ℚ} (hn : ∀ x ∈ l, 0 ≤ x)
    {x : ℚ} (hx : x ∈ l) (hp : 0 < x) : 0 < l.sum := by
  induction l with
  | nil => cases hx
  | cons y ys ih =>
    rcases List.mem_cons.mp hx with h | h
    · subst h
      have : 0 ≤ ys.sum := List.sum_nonneg (fun z hz => hn z (List.mem_cons_of_mem _ hz))
      simpa using add_pos_of_pos_of_nonneg hp this
    · have hy : 0 ≤ y := hn y (List.mem_cons_self _ _)
      have : 0 < ys.sum := ih (fun z hz => hn z (List.mem_cons_of_mem _ hz)) h
      simpa using add_pos_of_nonneg_of_pos hy this

/-- Membership in `posIdxs`. -/
theorem mem_posIdxs {w : List ℚ} {i : ℕ} :
    i ∈ posIdxs w ↔ i < w.length ∧ 0 < w.getD i 0 := by
  simp [posIdxs, List.mem_filter, List.mem_range]

/-- The `posIdxs` has no duplicates. -/
theorem posIdxs_nodup (w : List ℚ) : (posIdxs w).Nodup :=
  (List.nodup_range _).filter _

/-- Zeroing a positive-weight index removes exactly it from `posIdxs`. -/
theorem posIdxs_set_zero (w : List ℚ) {i : ℕ} (h : i ∈ posIdxs w) :
    posIdxs (w.set i 0) = (posIdxs w).filter (fun j => j != i) := by
  have hi : i < w.length := (mem_posIdxs.mp h).1
  unfold posIdxs
  rw [List.length_set, List.filter_filter]
  apply List.filter_congr
  intro j _
  by_cases hji : j = i
  · subst hji
    simp [List.getD_eq_getElem?_getD, List.getElem?_set_self, hi]
  · have hij : i ≠ j := fun he => hji he.symm
    simp [List.getD_eq_getElem?_getD, List.getElem?_set_ne hij, hji]

/-- Zeroing a positive-weight index decreases the positive count by one. -/
theorem length_posIdxs_set_zero (w : List ℚ) {i : ℕ} (h : i ∈ posIdxs w) :
    (posIdxs (w.set i 0)).length + 1 = (posIdxs w).length := by
  rw [posIdxs_set_zero w h]
  have he : (posIdxs w).erase i = (posIdxs w).filter (fun j => j != i) :=
    (posIdxs_nodup w).erase_eq_filter i
  rw [← he, List.length_erase_of_mem h]
  have : 1 ≤ (posIdxs w).length := List.length_pos_of_mem h
  omega

/-- Sampling-loop specification: while strictly more indices carry positive
weight than there are draws left, the loop succeeds and yields pairwise
distinct indices, each of which carried positive weight in the starting
weight vector (in particular no zero-weight index is ever drawn). -/
theorem drawLoop_spec (rng : ℕ → ℕ) :
    ∀ (k : ℕ) (w : List ℚ) (t : ℕ),
      (∀ x ∈ w, 0 ≤ x) → k < (posIdxs w).length →
      ∃ is, drawLoop rng k w t = some is ∧ is.length = k ∧ is.Nodup ∧
        ∀ i ∈ is, i ∈ posIdxs w := by
  intro k
  induction k with
  | zero =>
    intro w t _ _
    exact ⟨[], rfl, rfl, List.nodup_nil, by simp⟩
  | succ k ih =>
    intro w t hw hk
    have hlenpos : 0 < (posIdxs w).length := by omega
    have hmod : rng t % (posIdxs w).length < (posIdxs w).length :=
      Nat.mod_lt _ hlenpos
    set i := (posIdxs w).getD (rng t % (posIdxs w).length) 0 with hidef
    have him : i ∈ posIdxs w := by
      rw [hidef, List.getD_eq_getElem _ _ hmod]
      exact List.getElem_mem _
    set wNew := w.set i 0 with hwnew
    have hwNewNonneg : ∀ x ∈ wNew, 0 ≤ x := by
      intro x hx
      rcases List.mem_or_eq_of_mem_set hx with hx' | hx'
      · exact hw x hx'
      · simp [hx']
    have hlen' : (posIdxs wNew).length + 1 = (posIdxs w).length :=
      length_posIdxs_set_zero w him
    have hk' : k < (posIdxs wNew).length := by omega
    have hSumPos : 0 < wNew.sum := by
      have : 0 < (posIdxs wNew).length := by omega
      obtain ⟨j, hj⟩ := List.exists_mem_of_length_pos this
      obtain ⟨hjlt, hjpos⟩ := mem_posIdxs.mp hj
      have : wNew.getD j 0 ∈ wNew := by
        rw [List.getD_eq_getElem _ _ hjlt]
        exact List.getElem_mem _
      exact sum_pos_of_mem hwNewNonneg this hjpos
    obtain ⟨is, heq, hl, hnd, hmem⟩ := ih wNew (t + 1) hwNewNonneg hk'
    refine ⟨i :: is, ?_, by simp [hl], ?_, ?_⟩
    · show drawLoop rng (k + 1) w t = some (i :: is)
      rw [drawLoop]
      simp only []
      rw [if_neg (by omega), if_neg (by push_neg; exact hSumPos)]
      rw [← hidef, ← hwnew, heq]
      rfl
    · refine List.nodup_cons.mpr ⟨?_, hnd⟩
      intro hin
      have := hmem i hin
      rw [posIdxs_set_zero w him] at this
      have := (List.mem_filter.mp this).2
      simp at this
    · intro j hj
      rcases List.mem_cons.mp hj with hj' | hj'
      · exact hj' ▸ him
      · have := hmem j hj'
        rw [posIdxs_set_zero w him] at this
        exact (List.mem_filter.mp this).1

/-- Filtering a successor-mapped list. -/
theorem filter_map_succ (p : ℕ → Bool) (l : List ℕ) :
    (l.map Nat.succ).filter p = (l.filter (fun n => p (n + 1))).map Nat.succ := by
  induction l with
  | nil => rfl
  | cons x xs ih =>
    by_cases h : p (x + 1) <;> simp [Nat.succ_eq_add_one, h, ih]

/-- The number of positive-weight indices is the positive-entry count. -/
theorem posIdxs_length_eq (w : List ℚ) :
    (posIdxs w).length = w.countP (fun x => decide (0 < x)) := by
  induction w with
  | nil => rfl
  | cons x xs ih =>
    have hstep : ∀ n : ℕ, (x :: xs).getD (n + 1) 0 = xs.getD n 0 := fun _ => rfl
    unfold posIdxs at *
    rw [List.length_cons, List.range_succ_eq_map, List.filter_cons,
      List.countP_cons, filter_map_succ]
    simp only [List.getD_cons_zero, hstep]
    simp only [List.getD_eq_getElem?_getD] at ih ⊢
    by_cases h : 0 < x
    · simp [h, ih]
    · simp [h, ih]

/-- Reading the weight column of an item list. -/
theorem getD_map_snd {α : Type} [Inhabited α] (items : List (α × ℚ)) {i : ℕ}
    (h : i < items.length) :
    (items.map Prod.snd).getD i 0 = (items.getD i default).2 := by
  rw [List.getD_eq_getElem?_getD, List.getD_eq_getElem?_getD, List.getElem?_map]
  simp [List.getElem?_eq_getElem, h]

/-- Behaviour of `choice_n` on the weighted-sampling path when strictly
more than `n` items carry positive weight: the call succeeds, returning
`n` items at pairwise distinct input positions, each of which carried
positive weight. -/
theorem choice_n_spec {α : Type} [Inhabited α] (rng : ℕ → ℕ)
    (items : List (α × ℚ)) (n : ℕ)
    (hnn : ∀ it ∈ items, 0 ≤ it.2)
    (hcnt : n < items.countP (fun it => decide (0 < it.2))) :
    ∃ idxs : List ℕ, idxs.length = n ∧ idxs.Nodup ∧
      (∀ i ∈ idxs, i < items.length ∧ 0 < (items.getD i default).2) ∧
      choice_n rng items n = some (idxs.map (fun i => items.getD i default)) := by
  set w := items.map Prod.snd with hw
  have hwnn : ∀ x ∈ w, 0 ≤ x := by
    intro x hx
    obtain ⟨it, hit, rfl⟩ := List.mem_map.mp hx
    exact hnn it hit
  have hcntw : n < (posIdxs w).length := by
    rw [posIdxs_length_eq, hw, List.countP_map]
    exact hcnt
  have hle : items.countP (fun it => decide (0 < it.2)) ≤ items.length :=
    List.countP_le_length _
  have hnotlt : ¬ items.length < n := by omega
  have hne : ¬ items.isEmpty = true := by
    have : 0 < items.length := by omega
    simp [List.isEmpty_iff, List.length_pos_iff_ne_nil.mp this]
  have hanyneg : items.any (fun it => decide (it.2 < 0)) = false := by
    simp only [List.any_eq_false, decide_eq_true_eq]
    intro it hit
    exact not_lt.mpr (hnn it hit)
  have hsum : ¬ w.sum ≤ 0 := by
    push_neg
    have hpos : 0 < items.countP (fun it => decide (0 < it.2)) := by omega
    obtain ⟨it, hit, hp⟩ := List.countP_pos_iff.mp hpos
    have hp' : 0 < it.2 := of_decide_eq_true hp
    exact sum_pos_of_mem hwnn (List.mem_map_of_mem Prod.snd hit) hp'
  obtain ⟨idxs, heq, hlen, hnd, hmem⟩ := drawLoop_spec rng n w 0 hwnn hcntw
  refine ⟨idxs, hlen, hnd, ?_, ?_⟩
  · intro i hi
    obtain ⟨hilt, hipos⟩ := mem_posIdxs.mp (hmem i hi)
    have hilt' : i < items.length := by
      rw [hw, List.length_map] at hilt
      exact hilt
    refine ⟨hilt', ?_⟩
    rw [← getD_map_snd items hilt']
    exact hipos
  · rw [choice_n, if_neg hnotlt, if_neg (by simpa using hne), if_neg (by simp [hanyneg]),
      if_neg hsum, ← hw, heq]
    rfl

/-- Claim C5 as stated is refuted here: a one-item list with positive
weight and `n = 1` satisfies `len(items) >= n`, yet the call panics
(`update_weights` zeroes the total weight on the final draw and its
`.unwrap()` aborts) instead of returning exactly one item. -/
theorem C5_counterexample :
    choice_n (fun _ => 0) [((0 : ℕ), (1 : ℚ))] 1 = none := by
  norm_num [choice_n, drawLoop, posIdxs, List.range_succ]

/-- Claim C5, amended: `choice_n(items, n)` returns all items unchanged
when the list has fewer than `n` items; when strictly more than `n` items
carry positive weight (and none is negative) it returns exactly `n` items
at pairwise distinct input positions, each of which carried positive
weight — in particular a zero-weight item is never drawn.  (When at least
`n` items exist but at most `n` of them carry positive weight, the call
panics instead of returning, as the counterexample shows.) -/
theorem C5_theorem (rng : ℕ → ℕ) (items : List (ℕ × ℚ)) (n : ℕ) :
    (items.length < n → choice_n rng items n = some items) ∧
    ((∀ it ∈ items, 0 ≤ it.2) → n < items.countP (fun it => decide (0 < it.2)) →
      ∃ idxs : List ℕ, idxs.length = n ∧ idxs.Nodup ∧
        (∀ i ∈ idxs, i < items.length ∧ 0 < (items.getD i default).2) ∧
        choice_n rng items n = some (idxs.map (fun i => items.getD i default))) := by
  constructor
  · intro h
    simp [choice_n, h]
  · intro h1 h2
    exact choice_n_spec rng items n h1 h2

/-- Witness for C5: a two-item list with `n = 3` is returned unchanged,
and a three-item all-positive list with `n = 2` yields two items at
distinct positive-weight positions. -/
theorem C5_witness :
    (choice_n (fun _ => 0) [((8 : ℕ), (1 : ℚ)), (9, 1)] 3 = some [(8, 1), (9, 1)]) ∧
    (∃ idxs : List ℕ, idxs.length = 2 ∧ idxs.Nodup ∧
      (∀ i ∈ idxs, i < ([((5 : ℕ), (1 : ℚ)), (6, 1), (7, 1)] : List (ℕ × ℚ)).length ∧
        0 < (([((5 : ℕ), (1 : ℚ)), (6, 1), (7, 1)] : List (ℕ × ℚ)).getD i default).2) ∧
      choice_n (fun _ => 0) [((5 : ℕ), (1 : ℚ)), (6, 1), (7, 1)] 2 =
        some (idxs.map (fun i =>
          ([((5 : ℕ), (1 : ℚ)), (6, 1), (7, 1)] : List (ℕ × ℚ)).getD i default))) :=
  ⟨(C5_theorem (fun _ => 0) [((8 : ℕ), (1 : ℚ)), (9, 1)] 3).1 (by decide),
   (C5_theorem (fun _ => 0) [((5 : ℕ), (1 : ℚ)), (6, 1), (7, 1)] 2).2
     (by decide) (by decide)⟩

/-- Claim C6 as stated is refuted here: on a two-item list of all-zero
weights with `n = 1`, `choice_n` panics (`WeightedIndex::new` rejects the
zero total and the `.unwrap()` aborts) instead of performing a uniform
draw. -/
theorem C6_counterexample :
    choice_n (fun _ => 0) [((0 : ℕ), (0 : ℚ)), (1, 0)] 1 = none := by
  norm_num [choice_n, drawLoop, posIdxs, List.range_succ]

/-- Claim C6, amended: for every input to `choice_n` with at least `n`
items in which all weights are zero, the call panics
(`WeightedIndex::new(..).unwrap()` aborts on the zero total weight); there
is no defined fallback draw. -/
theorem C6_theorem (rng : ℕ → ℕ) (items : List (ℕ × ℚ)) (n : ℕ)
    (hz : ∀ it ∈ items, it.2 = 0) (hn : n ≤ items.length) :
    choice_n rng items n = none := by
  rw [choice_n, if_neg (by omega)]
  cases items with
  | nil => rfl
  | cons it its =>
    have hany : ¬ ((it :: its).any (fun x => decide (x.2 < 0)) = true) := by
      simp only [List.any_eq_true, decide_eq_true_eq]
      push_neg
      intro p hp
      rw [hz p hp]
    have hz' : ∀ x ∈ (it :: its).map Prod.snd, x = (0 : ℚ) := by
      intro x hx
      obtain ⟨p, hp, rfl⟩ := List.mem_map.mp hx
      exact hz p hp
    have hsum : ((it :: its).map Prod.snd).sum ≤ 0 := by
      rw [List.sum_eq_zero hz']
    rw [if_neg (by simp), if_neg hany, if_pos hsum]

/-- Witness for C6: the amended theorem applied to a concrete all-zero
three-item list with `n = 2`. -/
theorem C6_witness :
    choice_n (fun _ => 0) [((3 : ℕ), (0 : ℚ)), (4, 0), (5, 0)] 2 = none :=
  C6_theorem (fun _ => 0) [((3 : ℕ), (0 : ℚ)), (4, 0), (5, 0)] 2
    (by decide) (by decide)

/-- An index produced by `node_to_idx` is a valid node index. -/
theorem nodeToIdx_lt {nodes : List ℕ} {k i : ℕ} (h : nodeToIdx nodes k = some i) :
    i < nodes.length := by
  unfold nodeToIdx at h
  have hmem : i ∈ (List.range nodes.length).filter (fun j => nodes.getD j 0 == k) := by
    obtain ⟨hne, he⟩ := List.mem_getLast?_eq_getLast (l := _) (x := i) h
    rw [he]
    exact List.getLast_mem hne
  exact List.mem_range.mp (List.mem_filter.mp hmem).1

/-- The `getD` at a valid index is a member. -/
theorem getD_mem_of_lt {α : Type} (l : List α) (i : ℕ) (d : α) (h : i < l.length) :
    l.getD i d ∈ l := by
  rw [List.getD_eq_getElem _ _ h]
  exact List.getElem_mem _

/-- Replacing an entry changes a natural-number sum by the difference. -/
theorem sum_set_getD (l : List ℕ) : ∀ (i : ℕ), i < l.length → ∀ (a : ℕ),
    (l.set i a).sum + l.getD i 0 = l.sum + a := by
  induction l with
  | nil => intro i hi; simp at hi
  | cons x xs ih =>
    intro i hi a
    cases i with
    | zero => simp [List.sum_cons]; omega
    | succ i =>
      have := ih i (by simpa using hi) a
      have hset : (x :: xs).set (i + 1) a = x :: xs.set i a := rfl
      rw [hset]
      simp only [List.sum_cons, List.getD_cons_succ]
      omega

/-- The length column of a list of lists, read through `getD`. -/
theorem getD_map_length (nc : List (List ℕ)) {i : ℕ} (h : i < nc.length) :
    (nc.map List.length).getD i 0 = (nc.getD i []).length := by
  rw [List.getD_eq_getElem _ _ (by simpa using h), List.getD_eq_getElem _ _ h]
  simp

/-- Reading every index of a list through `getD` reproduces the list. -/
theorem map_getD_range {α : Type} (l : List α) (d : α) :
    (List.range l.length).map (fun i => l.getD i d) = l := by
  induction l with
  | nil => rfl
  | cons x xs ih =>
    rw [List.length_cons, List.range_succ_eq_map, List.map_cons, List.map_map]
    have hcomp : ((fun i => (x :: xs).getD i d) ∘ Nat.succ) = fun i => xs.getD i d := by
      funext i; rfl
    rw [hcomp, ih]
    rfl

/-- Specification of the `'channel` accumulation loop: the per-node lists
keep their count, each skipped channel bumps the counter by exactly one
and contributes no entry, and each valid channel contributes exactly two
entries. -/
theorem computeEdges_fold_spec (nodes : List ℕ) :
    ∀ (cs : List (ℕ × (ℕ × ℕ))) (nc : List (List ℕ)) (skip : ℕ),
      nc.length = nodes.length →
      (cs.foldl (computeEdgesStep nodes) (nc, skip)).1.length = nodes.length ∧
      (cs.foldl (computeEdgesStep nodes) (nc, skip)).2 =
        skip + (cs.filter (fun ci => !validChannel nodes ci.2)).length ∧
      ((cs.foldl (computeEdgesStep nodes) (nc, skip)).1.map List.length).sum =
        (nc.map List.length).sum + 2 * (cs.filter (fun ci => validChannel nodes ci.2)).length ∧
      (∀ x : ℕ, (∀ l ∈ nc, x ∉ l) →
        (∀ ci ∈ cs, ci.1 = x → validChannel nodes ci.2 = false) →
        ∀ l ∈ (cs.foldl (computeEdgesStep nodes) (nc, skip)).1, x ∉ l) := by
  intro cs
  induction cs with
  | nil =>
    intro nc skip h
    refine ⟨h, by simp, by simp, ?_⟩
    intro x hx _
    simpa using hx
  | cons ci cs ih =>
    intro nc skip h
    rw [List.foldl_cons]
    rcases hv1 : nodeToIdx nodes ci.2.1 with _ | i1
    · have hstep : computeEdgesStep nodes (nc, skip) ci = (nc, skip + 1) := by
        unfold computeEdgesStep
        rw [hv1]
      have hvc : validChannel nodes ci.2 = false := by
        simp [validChannel, hv1]
      obtain ⟨g1, g2, g3, g4⟩ := ih nc (skip + 1) h
      rw [hstep]
      refine ⟨g1, ?_, ?_, ?_⟩
      · rw [g2, List.filter_cons, hvc]
        simp only [Bool.not_false, if_pos]
        rw [List.length_cons]
        omega
      · rw [g3, List.filter_cons, hvc]
        simp
      · intro x hx hcs
        exact g4 x hx (fun d hd => hcs d (List.mem_cons_of_mem _ hd))
    · rcases hv2 : nodeToIdx nodes ci.2.2 with _ | i2
      · have hstep : computeEdgesStep nodes (nc, skip) ci = (nc, skip + 1) := by
          unfold computeEdgesStep
          rw [hv1, hv2]
        have hvc : validChannel nodes ci.2 = false := by
          simp [validChannel, hv2]
        obtain ⟨g1, g2, g3, g4⟩ := ih nc (skip + 1) h
        rw [hstep]
        refine ⟨g1, ?_, ?_, ?_⟩
        · rw [g2, List.filter_cons, hvc]
          simp only [Bool.not_false, if_pos]
          rw [List.length_cons]
          omega
        · rw [g3, List.filter_cons, hvc]
          simp
        · intro x hx hcs
          exact g4 x hx (fun d hd => hcs d (List.mem_cons_of_mem _ hd))
      · have hi1 : i1 < nc.length := h ▸ nodeToIdx_lt hv1
        have hi2' : i2 < nodes.length := nodeToIdx_lt hv2
        set nc1 := nc.set i1 ((nc.getD i1 []) ++ [ci.1]) with hnc1
        have hlen1 : nc1.length = nc.length := by rw [hnc1, List.length_set]
        have hi2 : i2 < nc1.length := by omega
        set nc2 := nc1.set i2 ((nc1.getD i2 []) ++ [ci.1]) with hnc2
        have hlen2 : nc2.length = nodes.length := by
          rw [hnc2, List.length_set]; omega
        have hstep : computeEdgesStep nodes (nc, skip) ci = (nc2, skip) := by
          unfold computeEdgesStep
          rw [hv1, hv2]
        have hvc : validChannel nodes ci.2 = true := by
          simp [validChannel, hv1, hv2]
        have hsum1 : (nc1.map List.length).sum = (nc.map List.length).sum + 1 := by
          rw [hnc1, List.map_set]
          have happ : ((nc.getD i1 []) ++ [ci.1]).length = (nc.getD i1 []).length + 1 := by
            simp
          rw [happ]
          have := sum_set_getD (nc.map List.length) i1 (by simpa using hi1)
            ((nc.getD i1 []).length + 1)
          rw [getD_map_length nc hi1] at this
          omega
        have hsum2 : (nc2.map List.length).sum = (nc.map List.length).sum + 2 := by
          rw [hnc2, List.map_set]
          have happ : ((nc1.getD i2 []) ++ [ci.1]).length = (nc1.getD i2 []).length + 1 := by
            simp
          rw [happ]
          have := sum_set_getD (nc1.map List.length) i2 (by simpa using hi2)
            ((nc1.getD i2 []).length + 1)
          rw [getD_map_length nc1 hi2] at this
          omega
        obtain ⟨g1, g2, g3, g4⟩ := ih nc2 skip hlen2
        rw [hstep]
        refine ⟨g1, ?_, ?_, ?_⟩
        · rw [g2, List.filter_cons, hvc]
          simp
        · rw [g3, hsum2, List.filter_cons, hvc]
          simp only [if_pos]
          rw [List.length_cons]
          ring
        · intro x hx hcs
          have hne : ci.1 ≠ x := by
            intro he
            have := hcs ci (List.mem_cons_self _ _) he
            rw [hvc] at this
            cases this
          have hx1 : ∀ l ∈ nc1, x ∉ l := by
            intro l hl hxl
            rcases List.mem_or_eq_of_mem_set (hnc1 ▸ hl) with hl' | hl'
            · exact hx l hl' hxl
            · rcases List.mem_append.mp (hl' ▸ hxl) with hm | hm
              · exact hx _ (getD_mem_of_lt nc i1 [] hi1) hm
              · exact hne (List.mem_singleton.mp hm).symm
          have hx2 : ∀ l ∈ nc2, x ∉ l := by
            intro l hl hxl
            rcases List.mem_or_eq_of_mem_set (hnc2 ▸ hl) with hl' | hl'
            · exact hx1 l hl' hxl
            · rcases List.mem_append.mp (hl' ▸ hxl) with hm | hm
              · exact hx1 _ (getD_mem_of_lt nc1 i2 [] hi2) hm
              · exact hne (List.mem_singleton.mp hm).symm
          exact g4 x hx2 (fun d hd _ => hcs d (List.mem_cons_of_mem _ hd)
            (by assumption))

/-- Filtering the value column of an enumeration. -/
theorem filter_enum_snd_length {α : Type} (p : α → Bool) (l : List α) :
    (l.enum.filter (fun ci => p ci.2)).length = (l.filter p).length := by
  rw [← List.countP_eq_length_filter, ← List.countP_eq_length_filter]
  have h := List.countP_map p Prod.snd l.enum
  rw [List.enum_map_snd] at h
  exact h.symm

/-- Summed lengths of per-node mapped lists. -/
theorem map_length_sum_eq (nc : List (List ℕ)) (g : ℕ → ℕ → ℕ) (n : ℕ)
    (h : nc.length = n) :
    (((List.range n).map (fun nIdx => (nc.getD nIdx []).map (g nIdx))).map
      List.length).sum = (nc.map List.length).sum := by
  subst h
  rw [List.map_map]
  have hc : (List.length ∘ fun nIdx => (nc.getD nIdx []).map (g nIdx))
      = fun nIdx => (nc.getD nIdx []).length := by
    funext i
    simp
  rw [hc]
  conv_rhs => rw [← map_getD_range nc []]
  rw [List.map_map]
  rfl

/-- Claim C7: `Graph::build` is total in shape (one adjacency list per
node, also for an empty node list); an edge with an absent endpoint
contributes zero adjacency entries and bumps the skip counter by exactly
one; the total number of adjacency entries is twice the number of valid
edges. -/
theorem C7_theorem (nodes : List ℕ) (channels : List (ℕ × ℕ)) :
    (Graph.build nodes channels).edges.length = nodes.length ∧
    (compute_edges nodes channels).skipped =
      (channels.filter (fun c => !(validChannel nodes c))).length ∧
    ((compute_edges nodes channels).edges.map List.length).sum =
      2 * (channels.filter (fun c => validChannel nodes c)).length ∧
    (∀ cIdx : ℕ, validChannel nodes (channels.getD cIdx (0, 0)) = false →
      ∀ l ∈ (compute_edges nodes channels).nodeChannels, cIdx ∉ l) := by
  obtain ⟨g1, g2, g3, g4⟩ := computeEdges_fold_spec nodes channels.enum
    (List.replicate nodes.length []) 0 (by simp)
  have hnc : (compute_edges nodes channels).nodeChannels =
      (channels.enum.foldl (computeEdgesStep nodes)
        (List.replicate nodes.length [], 0)).1 := rfl
  have hskip : (compute_edges nodes channels).skipped =
      (channels.enum.foldl (computeEdgesStep nodes)
        (List.replicate nodes.length [], 0)).2 := rfl
  have hedges : (compute_edges nodes channels).edges =
      (List.range nodes.length).map (fun nIdx =>
        ((compute_edges nodes channels).nodeChannels.getD nIdx []).map (fun cIdx =>
          if nIdx = (nodeToIdx nodes (channels.getD cIdx (0, 0)).1).getD 0
          then (nodeToIdx nodes (channels.getD cIdx (0, 0)).2).getD 0
          else (nodeToIdx nodes (channels.getD cIdx (0, 0)).1).getD 0)) := rfl
  refine ⟨by simp [Graph.build, compute_edges], ?_, ?_, ?_⟩
  · rw [hskip, g2, ← filter_enum_snd_length (fun c => !(validChannel nodes c)) channels]
    simp
  · rw [hedges, map_length_sum_eq _ _ _ (by rw [hnc]; exact g1), hnc, g3,
      ← filter_enum_snd_length (fun c => validChannel nodes c) channels]
    simp
  · intro cIdx hval l hl
    rw [hnc] at hl
    refine g4 cIdx (by simp) ?_ l hl
    intro ci hci hfst
    have hget : channels[ci.1]? = some ci.2 := List.mem_enum_iff_getElem?.mp hci
    have : channels.getD cIdx (0, 0) = ci.2 := by
      rw [← hfst, List.getD_eq_getElem?_getD, hget]
      rfl
    rw [← this]
    exact hval

/-- Witness for C7 on a concrete graph: two nodes, one valid channel and
one channel with an unknown endpoint — one skip, two adjacency entries,
and the invalid channel's index appears in no per-node list. -/
theorem C7_witness :
    (compute_edges [10, 20] [(10, 20), (10, 99)]).skipped = 1 ∧
    ((compute_edges [10, 20] [(10, 20), (10, 99)]).edges.map List.length).sum = 2 ∧
    (1 : ℕ) ∉ (compute_edges [10, 20] [(10, 20), (10, 99)]).nodeChannels.getD 0 [] :=
  ⟨by rw [(C7_theorem [10, 20] [(10, 20), (10, 99)]).2.1]; decide,
   by rw [(C7_theorem [10, 20] [(10, 20), (10, 99)]).2.2.1]; decide,
   (C7_theorem [10, 20] [(10, 20), (10, 99)]).2.2.2 1 (by decide)
     ((compute_edges [10, 20] [(10, 20), (10, 99)]).nodeChannels.getD 0 [])
     (by decide)⟩

/-- A fold over members preserves an invariant preserved by each member step. -/
theorem foldl_preserves_mem {α β : Type} {P : β → Prop} (f : β → α → β) :
    ∀ (l : List α), (∀ b a, a ∈ l → P b → P (f b a)) →
      ∀ (b : β), P b → P (l.foldl f b) := by
  intro l
  induction l with
  | nil => intro _ b hb; simpa using hb
  | cons x xs ih =>
    intro hf b hb
    exact ih (fun b a ha hb => hf b a (List.mem_cons_of_mem _ ha) hb) _
      (hf b x (List.mem_cons_self _ _) hb)

/-- Membership through `getElem?`. -/
theorem mem_of_getElem?_eq_some {α : Type} {l : List α} {i : ℕ} {a : α}
    (h : l[i]? = some a) : a ∈ l := by
  have hi : i < l.length := by
    by_contra hc
    rw [List.getElem?_eq_none (by omega)] at h
    cases h
  rw [List.getElem?_eq_getElem hi] at h
  cases h
  exact List.getElem_mem hi

/-- The `NonnegL` holds for the all-zero vector. -/
theorem nonnegL_replicate (n : ℕ) : NonnegL (List.replicate n 0) := by
  intro i
  rcases lt_or_le i n with h | h
  · rw [List.getD_eq_getElem _ _ (by simpa using h)]
    simp
  · rw [List.getD_eq_default _ _ (by simpa using h)]

/-- The `NonnegL` is preserved by writing a nonnegative value. -/
theorem nonnegL_set {l : List ℚ} (h : NonnegL l) {a : ℚ} (ha : 0 ≤ a) (i : ℕ) :
    NonnegL (l.set i a) := by
  intro j
  rcases lt_or_le i l.length with hi | hi
  · by_cases hij : i = j
    · subst hij
      rw [getD_set_self _ _ _ _ hi]
      exact ha
    · rw [getD_set_ne _ _ _ hij]
      exact h j
  · rw [List.set_eq_of_length_le hi]
    exact h j

/-- The `NonnegL` in membership form. -/
theorem nonnegL_mem {l : List ℚ} (h : NonnegL l) : ∀ x ∈ l, 0 ≤ x := by
  intro x hx
  obtain ⟨i, hi, rfl⟩ := List.mem_iff_getElem.mp hx
  have := h i
  rwa [List.getD_eq_getElem _ _ hi] at this

/-- The dependency-accumulation fold keeps both vectors nonnegative,
keeps the centrality vector's length, and never writes the source entry
of the centrality vector. -/
theorem accum_fold_post (sigma : List ℕ) (pred : List (List ℕ)) (s : ℕ)
    (stack : List ℕ) (n : ℕ) :
    NonnegL (stack.foldl (accumStep sigma pred s)
        (List.replicate n 0, List.replicate n 0)).2 ∧
      (stack.foldl (accumStep sigma pred s)
        (List.replicate n 0, List.replicate n 0)).2.length = n ∧
      (stack.foldl (accumStep sigma pred s)
        (List.replicate n 0, List.replicate n 0)).2.getD s 0 = 0 := by
  have hmain : ∀ acc : List ℚ × List ℚ,
      (NonnegL acc.1 ∧ NonnegL acc.2 ∧ acc.2.length = n ∧ acc.2.getD s 0 = 0) →
      (NonnegL (stack.foldl (accumStep sigma pred s) acc).1 ∧
        NonnegL (stack.foldl (accumStep sigma pred s) acc).2 ∧
        (stack.foldl (accumStep sigma pred s) acc).2.length = n ∧
        (stack.foldl (accumStep sigma pred s) acc).2.getD s 0 = 0) := by
    intro acc hacc
    refine foldl_preserves (P := fun acc : List ℚ × List ℚ =>
      NonnegL acc.1 ∧ NonnegL acc.2 ∧ acc.2.length = n ∧ acc.2.getD s 0 = 0)
      (accumStep sigma pred s) ?_ stack acc hacc
    intro acc w ⟨hd, hc, hl, hs⟩
    have hdelta : NonnegL ((pred.getD w []).foldl (fun d v =>
        d.set v (d.getD v 0 +
          ((sigma.getD v 0 : ℚ) / (sigma.getD w 0 : ℚ)) * (1 + d.getD w 0))) acc.1) := by
      refine foldl_preserves (P := NonnegL) _ ?_ _ _ hd
      intro d v hdn
      refine nonnegL_set hdn ?_ v
      have h1 : (0 : ℚ) ≤ (sigma.getD v 0 : ℚ) / (sigma.getD w 0 : ℚ) :=
        div_nonneg (Nat.cast_nonneg _) (Nat.cast_nonneg _)
      have h2 : (0 : ℚ) ≤ 1 + d.getD w 0 := by
        have := hdn w
        linarith
      exact add_nonneg (hdn v) (mul_nonneg h1 h2)
    unfold accumStep
    by_cases hws : w ≠ s
    · refine ⟨hdelta, ?_, ?_, ?_⟩
      · simp only [if_pos hws]
        refine nonnegL_set hc ?_ w
        exact add_nonneg (hc w) (hdelta w)
      · simp only [if_pos hws]
        rw [List.length_set]
        exact hl
      · simp only [if_pos hws]
        rw [getD_set_ne _ _ _ hws]
        exact hs
    · refine ⟨hdelta, ?_, ?_, ?_⟩ <;> simp only [if_neg hws] <;> assumption
  refine (fun h => ⟨h.2.1, h.2.2⟩) (hmain (List.replicate n 0, List.replicate n 0) ?_)
  exact ⟨nonnegL_replicate n, nonnegL_replicate n, by simp, by
    rcases lt_or_le s n with h | h
    · rw [List.getD_eq_getElem _ _ (by simpa using h)]; simp
    · rw [List.getD_eq_default _ _ (by simpa using h)]⟩

/-- Unconditional postcondition of a completed single-source run: the
result has one entry per node, every entry is nonnegative, and the source
entry is exactly `0`. -/
theorem centrality_post {n : ℕ} {edges : List (List ℕ)} {s : ℕ} {l : List ℚ}
    (h : centrality n edges s = some l) :
    l.length = n ∧ (∀ x ∈ l, 0 ≤ x) ∧ l.getD s 0 = 0 := by
  obtain ⟨st, _, rfl⟩ := Option.map_eq_some'.mp h
  obtain ⟨h1, h2, h3⟩ := accum_fold_post st.sigma st.pred s st.stack.reverse n
  exact ⟨h2, nonnegL_mem h1, h3⟩

/-- A pairwise fold of the min/max update splits into two folds. -/
theorem foldl_pair_minmax (l : List ℚ) : ∀ (a b : ℚ),
    l.foldl (fun mm v => ((if v < mm.1 then v else mm.1),
      (if mm.2 < v then v else mm.2))) (a, b)
      = (l.foldl (fun m v => if v < m then v else m) a,
         l.foldl (fun m v => if m < v then v else m) b) := by
  induction l with
  | nil => intro a b; rfl
  | cons x xs ih => intro a b; simpa using ih _ _

/-- Folding the running minimum over nonnegative values from `0` stays `0`. -/
theorem foldl_min_zero (l : List ℚ) (h : ∀ x ∈ l, 0 ≤ x) :
    l.foldl (fun m v => if v < m then v else m) 0 = 0 := by
  refine foldl_preserves_mem (P := fun m => m = 0) _ l ?_ 0 rfl
  intro m v hv hm
  subst hm
  rw [if_neg (not_lt.mpr (h v hv))]

/-- The running-maximum fold dominates its start and every element, and
its value is the start or an element. -/
theorem foldl_max_spec (l : List ℚ) : ∀ (b : ℚ),
    b ≤ l.foldl (fun m v => if m < v then v else m) b ∧
    (∀ x ∈ l, x ≤ l.foldl (fun m v => if m < v then v else m) b) ∧
    (l.foldl (fun m v => if m < v then v else m) b = b ∨
      l.foldl (fun m v => if m < v then v else m) b ∈ l) := by
  induction l with
  | nil => intro b; exact ⟨le_refl _, by simp, Or.inl rfl⟩
  | cons x xs ih =>
    intro b
    obtain ⟨ih1, ih2, ih3⟩ := ih (if b < x then x else b)
    have hbb : b ≤ (if b < x then x else b) := by
      by_cases h : b < x
      · rw [if_pos h]; exact le_of_lt h
      · rw [if_neg h]
    have hxb : x ≤ (if b < x then x else b) := by
      by_cases h : b < x
      · rw [if_pos h]
      · rw [if_neg h]; exact le_of_not_lt h
    simp only [List.foldl_cons]
    refine ⟨le_trans hbb ih1, ?_, ?_⟩
    · intro y hy
      rcases List.mem_cons.mp hy with hy' | hy'
      · subst hy'
        exact le_trans hxb ih1
      · exact ih2 y hy'
    · rcases ih3 with h | h
      · by_cases hbx : b < x
        · rw [h, if_pos hbx]
          exact Or.inr (List.mem_cons_self _ _)
        · rw [h, if_neg hbx]
          exact Or.inl rfl
      · exact Or.inr (List.mem_cons_of_mem _ h)

/-- Every list produced by an `Option`-valued `mapM` comes from some input. -/
theorem mapM_option_mem {α β : Type} (f : α → Option β) :
    ∀ (l : List α) (r : List β), l.mapM f = some r →
      ∀ b ∈ r, ∃ a ∈ l, f a = some b := by
  intro l
  induction l with
  | nil =>
    intro r hr b hb
    simp only [List.mapM_nil, Option.pure_def, Option.some.injEq] at hr
    subst hr
    cases hb
  | cons x xs ih =>
    intro r hr b hb
    rw [List.mapM_cons] at hr
    simp only [Option.pure_def, Option.bind_eq_bind, Option.bind_eq_some] at hr
    obtain ⟨y, hy, r', hr', hrr⟩ := hr
    cases hrr
    rcases List.mem_cons.mp hb with hb' | hb'
    · exact ⟨x, List.mem_cons_self _ _, hb' ▸ hy⟩
    · obtain ⟨a, ha, hfa⟩ := ih r' hr' b hb'
      exact ⟨a, List.mem_cons_of_mem _ ha, hfa⟩

/-- The element-wise aggregation of the per-source vectors has one entry
per node and stays nonnegative. -/
theorem agg_spec (partials : List (List ℚ)) (n : ℕ)
    (hp : ∀ p ∈ partials, p.length = n ∧ ∀ x ∈ p, 0 ≤ x) :
    (partials.foldl (fun acc p => List.zipWith (· + ·) acc p)
      (List.replicate n 0)).length = n ∧
    ∀ x ∈ partials.foldl (fun acc p => List.zipWith (· + ·) acc p)
      (List.replicate n 0), 0 ≤ x := by
  refine foldl_preserves_mem
    (P := fun acc : List ℚ => acc.length = n ∧ ∀ x ∈ acc, 0 ≤ x) _ partials ?_ _
    ⟨by simp, nonnegL_mem (nonnegL_replicate n)⟩
  intro acc p hpmem ⟨hlen, hnn⟩
  obtain ⟨hplen, hpnn⟩ := hp p hpmem
  constructor
  · rw [List.length_zipWith, hlen, hplen, min_self]
  · intro x hx
    obtain ⟨i, hi, rfl⟩ := List.mem_iff_getElem.mp hx
    rw [List.getElem_zipWith]
    refine add_nonneg (hnn _ ?_) (hpnn _ ?_) <;> exact List.getElem_mem _

/-- Structure of a successfully built `BetweennessCentrality`: the stored
minimum is `0`, the stored maximum dominates every stored value, every
stored value is nonnegative, and the maximum is `0` or attained. -/
theorem build_spec {g : Graph} {bc : BetweennessCentrality}
    (h : BetweennessCentrality.build g = some bc) :
    bc.min = 0 ∧ 0 ≤ bc.max ∧
    (∀ kv ∈ bc.centrality, 0 ≤ kv.2 ∧ kv.2 ≤ bc.max) ∧
    (bc.max = 0 ∨ ∃ kv ∈ bc.centrality, kv.2 = bc.max) := by
  obtain ⟨partials, hparts, rfl⟩ := Option.map_eq_some'.mp h
  have hp : ∀ p ∈ partials, p.length = g.nodes.length ∧ ∀ x ∈ p, 0 ≤ x := by
    intro p hpm
    obtain ⟨s, _, hps⟩ := mapM_option_mem _ _ _ hparts p hpm
    obtain ⟨h1, h2, _⟩ := centrality_post hps
    exact ⟨h1, h2⟩
  obtain ⟨hagglen, haggnn⟩ := agg_spec partials g.nodes.length hp
  set agg := partials.foldl (fun acc p => List.zipWith (· + ·) acc p)
    (List.replicate g.nodes.length 0) with hagg
  simp only [foldl_pair_minmax]
  obtain ⟨hmax0, hmaxdom, hmaxatt⟩ := foldl_max_spec agg 0
  set M := agg.foldl (fun m v => if m < v then v else m) 0 with hM
  refine ⟨?_, ?_, ?_, ?_⟩
  · simp [foldl_min_zero agg haggnn]
  · exact mul_nonneg hmax0 (by norm_num)
  · intro kv hkv
    simp only [List.mem_map] at hkv
    obtain ⟨ic, hic, rfl⟩ := hkv
    have hmem : ic.2 ∈ agg :=
      mem_of_getElem?_eq_some (List.mem_enum_iff_getElem?.mp hic)
    constructor
    · exact mul_nonneg (haggnn _ hmem) (by norm_num)
    · have h1 := hmaxdom _ hmem
      have : ic.2 * (1 / 2) ≤ M * (1 / 2) := by
        apply mul_le_mul_of_nonneg_right h1
        norm_num
      exact this
  · rcases hmaxatt with h | h
    · left
      rw [h, zero_mul]
    · right
      obtain ⟨i, hi, hia⟩ := List.mem_iff_getElem.mp h
      refine ⟨(g.nodes.getD i 0, M * (1 / 2)), ?_, rfl⟩
      simp only [List.mem_map]
      refine ⟨(i, M), ?_, rfl⟩
      rw [List.mem_enum_iff_getElem?]
      rw [List.getElem?_eq_getElem hi, hia]

/-- Pipeline evaluation: a single-node graph (min == max == 0). -/
theorem buildGet_single : buildGet [7] [] true = some GetOutcome.panic := by
  have he : (Graph.build [7] []).edges = [[]] := by decide
  have hn : (Graph.build [7] []).nodes = [7] := by decide
  have h0 : centrality 1 [[]] 0 = some [0] := by
    have hb : bfsLoop [[]] 2 (initState 1 0) =
        some ⟨[], [0], [0, -1], [1], [[]]⟩ := by decide
    rw [centrality, hb]
    norm_num [accumStep, List.replicate]
  norm_num [buildGet, BetweennessCentrality.build, BetweennessCentrality.get,
    hn, he, h0, List.range_succ, List.mapM, List.mapM.loop, List.replicate,
    List.enum, List.enumFrom]

/-- Pipeline evaluation: two reachable nodes joined by one edge — both
betweenness values are `0`, so min == max and `get(true)` panics. -/
theorem buildGet_edge2 : buildGet [0, 1] [(0, 1)] true = some GetOutcome.panic := by
  have he : (Graph.build [0, 1] [(0, 1)]).edges = [[1], [0]] := by decide
  have hn : (Graph.build [0, 1] [(0, 1)]).nodes = [0, 1] := by decide
  have h0 : centrality 2 [[1], [0]] 0 = some [0, 0] := by
    have hb : bfsLoop [[1], [0]] 3 (initState 2 0) =
        some ⟨[], [0, 1], [0, 1, -1], [1, 1], [[], [0]]⟩ := by decide
    rw [centrality, hb]
    norm_num [accumStep, List.replicate]
  have h1 : centrality 2 [[1], [0]] 1 = some [0, 0] := by
    have hb : bfsLoop [[1], [0]] 3 (initState 2 1) =
        some ⟨[], [1, 0], [1, 0, -1], [1, 1], [[1], []]⟩ := by decide
    rw [centrality, hb]
    norm_num [accumStep, List.replicate]
  norm_num [buildGet, BetweennessCentrality.build, BetweennessCentrality.get,
    hn, he, h0, h1, List.range_succ, List.mapM, List.mapM.loop, List.replicate,
    List.enum, List.enumFrom]

/-- Pipeline evaluation: the 4-cycle — every node ends at the normalized
value `1` (because `min` is initialised to `0.0`, not to the least
centrality), so no node gets the value `0`. -/
theorem buildGet_cycle4 :
    buildGet [0, 1, 2, 3] [(0, 1), (1, 2), (2, 3), (3, 0)] true =
      some (GetOutcome.ok [(0, 1), (1, 1), (2, 1), (3, 1)]) := by
  have he : (Graph.build [0, 1, 2, 3] [(0, 1), (1, 2), (2, 3), (3, 0)]).edges =
      [[1, 3], [0, 2], [1, 3], [2, 0]] := by decide
  have hn : (Graph.build [0, 1, 2, 3] [(0, 1), (1, 2), (2, 3), (3, 0)]).nodes =
      [0, 1, 2, 3] := by decide
  have h0 : centrality 4 [[1, 3], [0, 2], [1, 3], [2, 0]] 0 =
      some [0, 1 / 2, 0, 1 / 2] := by
    have hb : bfsLoop [[1, 3], [0, 2], [1, 3], [2, 0]] 5 (initState 4 0) =
        some ⟨[], [0, 1, 3, 2], [0, 1, 2, 1, -1], [1, 1, 2, 1],
          [[], [0], [1, 3], [0]]⟩ := by decide
    rw [centrality, hb]
    norm_num [accumStep, List.replicate]
  have h1 : centrality 4 [[1, 3], [0, 2], [1, 3], [2, 0]] 1 =
      some [1 / 2, 0, 1 / 2, 0] := by
    have hb : bfsLoop [[1, 3], [0, 2], [1, 3], [2, 0]] 5 (initState 4 1) =
        some ⟨[], [1, 0, 2, 3], [1, 0, 1, 2, -1], [1, 1, 1, 2],
          [[1], [], [1], [0, 2]]⟩ := by decide
    rw [centrality, hb]
    norm_num [accumStep, List.replicate]
  have h2 : centrality 4 [[1, 3], [0, 2], [1, 3], [2, 0]] 2 =
      some [0, 1 / 2, 0, 1 / 2] := by
    have hb : bfsLoop [[1, 3], [0, 2], [1, 3], [2, 0]] 5 (initState 4 2) =
        some ⟨[], [2, 1, 3, 0], [2, 1, 0, 1, -1], [2, 1, 1, 1],
          [[1, 3], [2], [], [2]]⟩ := by decide
    rw [centrality, hb]
    norm_num [accumStep, List.replicate]
  have h3 : centrality 4 [[1, 3], [0, 2], [1, 3], [2, 0]] 3 =
      some [1 / 2, 0, 1 / 2, 0] := by
    have hb : bfsLoop [[1, 3], [0, 2], [1, 3], [2, 0]] 5 (initState 4 3) =
        some ⟨[], [3, 2, 0, 1], [1, 2, 1, 0, -1], [1, 2, 1, 1],
          [[3], [2, 0], [3], []]⟩ := by decide
    rw [centrality, hb]
    norm_num [accumStep, List.replicate]
  norm_num [buildGet, BetweennessCentrality.build, BetweennessCentrality.get,
    hn, he, h0, h1, h2, h3, List.range_succ, List.mapM, List.mapM.loop,
    List.replicate, List.enum, List.enumFrom]
  all_goals decide

/-- Pipeline evaluation: the 3-node path — ends at `0`, middle at `1`. -/
theorem buildGet_path3 :
    buildGet [0, 1, 2] [(0, 1), (1, 2)] true =
      some (GetOutcome.ok [(0, 0), (1, 1), (2, 0)]) := by
  have he : (Graph.build [0, 1, 2] [(0, 1), (1, 2)]).edges =
      [[1], [0, 2], [1]] := by decide
  have hn : (Graph.build [0, 1, 2] [(0, 1), (1, 2)]).nodes = [0, 1, 2] := by decide
  have h0 : centrality 3 [[1], [0, 2], [1]] 0 = some [0, 1, 0] := by
    have hb : bfsLoop [[1], [0, 2], [1]] 4 (initState 3 0) =
        some ⟨[], [0, 1, 2], [0, 1, 2, -1], [1, 1, 1], [[], [0], [1]]⟩ := by decide
    rw [centrality, hb]
    norm_num [accumStep, List.replicate]
  have h1 : centrality 3 [[1], [0, 2], [1]] 1 = some [0, 0, 0] := by
    have hb : bfsLoop [[1], [0, 2], [1]] 4 (initState 3 1) =
        some ⟨[], [1, 0, 2], [1, 0, 1, -1], [1, 1, 1], [[1], [], [1]]⟩ := by decide
    rw [centrality, hb]
    norm_num [accumStep, List.replicate]
  have h2 : centrality 3 [[1], [0, 2], [1]] 2 = some [0, 1, 0] := by
    have hb : bfsLoop [[1], [0, 2], [1]] 4 (initState 3 2) =
        some ⟨[], [2, 1, 0], [2, 1, 0, -1], [1, 1, 1], [[1], [2], []]⟩ := by decide
    rw [centrality, hb]
    norm_num [accumStep, List.replicate]
  norm_num [buildGet, BetweennessCentrality.build, BetweennessCentrality.get,
    hn, he, h0, h1, h2, List.range_succ, List.mapM, List.mapM.loop,
    List.replicate, List.enum, List.enumFrom]

/-- Claim C1 as stated is refuted here: on a single-node graph (a
degenerate value set with max == min), `get(true)` does crash — the
embedding's outcome type has only `panic` and `ok`, faithfully to the
source, whose `get` returns a bare map and fails its
`assert!(self.max - self.min > 0.0)`; no typed error value is ever
produced for the caller to catch. -/
theorem C1_counterexample :
    buildGet [7] [] true = some GetOutcome.panic ∧
    ∀ scores, buildGet [7] [] true ≠ some (GetOutcome.ok scores) := by
  refine ⟨buildGet_single, ?_⟩
  intro scores hc
  rw [buildGet_single] at hc
  cases hc

/-- Claim C1, amended: for every `BetweennessCentrality` value set in
which max == min, `get` (with or without normalization) panics on its
assertion — the degenerate input is detected, but it aborts the process
instead of surfacing a typed, catchable error. -/
theorem C1_theorem (bc : BetweennessCentrality) (normalize : Bool)
    (h : bc.max = bc.min) : bc.get normalize = GetOutcome.panic := by
  unfold BetweennessCentrality.get
  rw [h]
  simp

/-- Witness for C1: a concrete degenerate value set. -/
theorem C1_witness :
    BetweennessCentrality.get ⟨[(7, 0)], 0, 0⟩ true = GetOutcome.panic :=
  C1_theorem ⟨[(7, 0)], 0, 0⟩ true rfl

/-- Claim C4 as stated is refuted here twice: the 2-node/1-edge graph has
at least 2 reachable nodes and an edge, yet normalization panics (so no
values are assigned at all); and the 4-cycle normalizes successfully but
assigns every node the value `1` — no node gets the value `0`, because
`min` is initialised to `0.0` rather than to the least centrality. -/
theorem C4_counterexample :
    (buildGet [0, 1] [(0, 1)] true = some GetOutcome.panic) ∧
    (buildGet [0, 1, 2, 3] [(0, 1), (1, 2), (2, 3), (3, 0)] true =
      some (GetOutcome.ok [(0, 1), (1, 1), (2, 1), (3, 1)])) ∧
    (∀ kv ∈ [((0 : ℕ), (1 : ℚ)), (1, 1), (2, 1), (3, 1)], kv.2 ≠ 0) :=
  ⟨buildGet_edge2, buildGet_cycle4, by decide⟩

/-- Claim C4, amended: whenever the normalized pipeline returns at all
(`get(true)` does not panic), every assigned value lies in `[0, 1]` and at
least one node is assigned the value `1`; a node with value `0` is not
guaranteed. -/
theorem C4_theorem (nodes : List ℕ) (channels : List (ℕ × ℕ))
    (m : List (ℕ × ℚ))
    (h : buildGet nodes channels true = some (GetOutcome.ok m)) :
    (∀ kv ∈ m, 0 ≤ kv.2 ∧ kv.2 ≤ 1) ∧ ∃ kv ∈ m, kv.2 = 1 := by
  obtain ⟨bc, hbc, hget⟩ := Option.map_eq_some'.mp h
  obtain ⟨hmin, hmax0, hdom, hatt⟩ := build_spec hbc
  unfold BetweennessCentrality.get at hget
  by_cases hpos : 0 < bc.max - bc.min
  swap
  · rw [if_neg hpos] at hget
    cases hget
  rw [if_pos hpos] at hget
  have hmaxpos : 0 < bc.max := by
    rw [hmin] at hpos
    linarith
  injection hget with hm
  subst hm
  constructor
  · intro kv hkv
    obtain ⟨kv0, hkv0, rfl⟩ := List.mem_map.mp hkv
    obtain ⟨h0, hle⟩ := hdom kv0 hkv0
    simp only [if_pos rfl]
    rw [hmin, sub_zero, sub_zero]
    constructor
    · exact mul_nonneg h0 (le_of_lt (by positivity))
    · have hstep : kv0.2 * (1 / bc.max) ≤ bc.max * (1 / bc.max) :=
        mul_le_mul_of_nonneg_right hle (by positivity)
      rw [mul_one_div_cancel (ne_of_gt hmaxpos)] at hstep
      exact hstep
  · rcases hatt with h0 | ⟨kv0, hkv0, hkv0v⟩
    · rw [h0] at hmaxpos
      exact absurd hmaxpos (lt_irrefl 0)
    · refine ⟨(kv0.1, (kv0.2 - bc.min) * (1 / (bc.max - bc.min))), ?_, ?_⟩
      · apply List.mem_map_of_mem _ hkv0
      · simp only [if_pos rfl]
        rw [hkv0v]
        exact mul_one_div_cancel (ne_of_gt hpos)

/-- Witness for C4: the 3-node path normalizes successfully, all values
lie in `[0, 1]` and the middle node attains `1`. -/
theorem C4_witness :
    (∀ kv ∈ [((0 : ℕ), (0 : ℚ)), (1, 1), (2, 0)], 0 ≤ kv.2 ∧ kv.2 ≤ 1) ∧
    ∃ kv ∈ [((0 : ℕ), (0 : ℚ)), (1, 1), (2, 0)], kv.2 = 1 :=
  C4_theorem [0, 1, 2] [(0, 1), (1, 2)] [(0, 0), (1, 1), (2, 0)] buildGet_path3

/-- Writing a non-`-1` value over a `-1` entry lowers the `-1` count by one. -/
theorem count_neg_one_set (l : List ℤ) : ∀ (w : ℕ), w < l.length →
    l.getD w 0 = -1 → ∀ (a : ℤ), a ≠ -1 →
    (l.set w a).count (-1) + 1 = l.count (-1) := by
  induction l with
  | nil => intro w hw; simp at hw
  | cons x xs ih =>
    intro w hw hv a ha
    cases w with
    | zero =>
      simp only [List.getD_cons_zero] at hv
      subst hv
      simp [List.count_cons, ha]
    | succ w =>
      have hset : (x :: xs).set (w + 1) a = x :: xs.set w a := rfl
      rw [hset]
      simp only [List.getD_cons_succ] at hv
      have := ih w (by simpa using hw) hv a ha
      simp only [List.count_cons]
      omega

/-- The `dist`/`queue` effect of one neighbor relaxation. -/
theorem relaxStep_proj (v : ℕ) (st : BfsState) (w : ℕ) :
    (relaxStep v st w).dist =
      (if st.dist.getD w 0 = -1 then st.dist.set w (st.dist.getD v 0 + 1)
        else st.dist) ∧
    (relaxStep v st w).queue =
      (if st.dist.getD w 0 = -1 then st.queue ++ [w] else st.queue) := by
  unfold relaxStep relaxCount relaxDiscover
  constructor <;> (split_ifs <;> rfl)

/-- One neighbor relaxation preserves the invariant and the quantity
`count(-1 in dist) + |queue|`. -/
theorem relaxStep_spec {n : ℕ} {st : BfsState} (hok : BfsOk n st)
    (v w : ℕ) (hw : w < n) :
    BfsOk n (relaxStep v st w) ∧
    (relaxStep v st w).dist.count (-1) + (relaxStep v st w).queue.length
      = st.dist.count (-1) + st.queue.length := by
  obtain ⟨hlen, hge, hq⟩ := hok
  obtain ⟨hdist, hqueue⟩ := relaxStep_proj v st w
  by_cases h1 : st.dist.getD w 0 = -1
  · rw [if_pos h1] at hdist hqueue
    have hwlt : w < st.dist.length := by omega
    have hanew : st.dist.getD v 0 + 1 ≠ -1 := by
      have := hge v
      omega
    refine ⟨⟨?_, ?_, ?_⟩, ?_⟩
    · rw [hdist, List.length_set]
      exact hlen
    · intro i
      rw [hdist]
      by_cases hiw : w = i
      · subst hiw
        rw [getD_set_self _ _ _ _ hwlt]
        have := hge v
        omega
      · rw [getD_set_ne _ _ _ hiw]
        exact hge i
    · intro x hx
      rw [hqueue] at hx
      rcases List.mem_append.mp hx with hx' | hx'
      · exact hq x hx'
      · rw [List.mem_singleton.mp hx']
        exact hw
    · rw [hdist, hqueue, List.length_append]
      have := count_neg_one_set st.dist w hwlt h1 _ hanew
      simp only [List.length_cons, List.length_nil]
      omega
  · rw [if_neg h1] at hdist hqueue
    refine ⟨⟨?_, ?_, ?_⟩, ?_⟩
    · rw [hdist]
      exact hlen
    · intro i
      rw [hdist]
      exact hge i
    · intro x hx
      rw [hqueue] at hx
      exact hq x hx
    · rw [hdist, hqueue]

/-- The whole neighbor loop of one popped node preserves the invariant
and the quantity `count(-1 in dist) + |queue|`. -/
theorem relaxNeighbors_spec {n : ℕ} {edges : List (List ℕ)}
    (hedges : ∀ l ∈ edges, ∀ w ∈ l, w < n) (v : ℕ) {st : BfsState}
    (hok : BfsOk n st) :
    BfsOk n (relaxNeighbors edges v st) ∧
    (relaxNeighbors edges v st).dist.count (-1) +
        (relaxNeighbors edges v st).queue.length
      = st.dist.count (-1) + st.queue.length := by
  have hws : ∀ w ∈ edges.getD v [], w < n := by
    intro w hwmem
    rcases lt_or_le v edges.length with hv | hv
    · exact hedges _ (getD_mem_of_lt edges v [] hv) w hwmem
    · rw [List.getD_eq_default _ _ hv] at hwmem
      cases hwmem
  unfold relaxNeighbors
  refine foldl_preserves_mem
    (P := fun st2 : BfsState => BfsOk n st2 ∧
      st2.dist.count (-1) + st2.queue.length
        = st.dist.count (-1) + st.queue.length)
    (relaxStep v) (edges.getD v []) ?_ st ⟨hok, rfl⟩
  intro st2 w hwmem ⟨hok2, hm2⟩
  obtain ⟨hok3, hm3⟩ := relaxStep_spec hok2 v w (hws w hwmem)
  exact ⟨hok3, by omega⟩

/-- With fuel at least `count(-1 in dist) + |queue|` and at least `n`
adjacency lists, the BFS loop terminates (the queue empties without
hitting the out-of-bounds panic). -/
theorem bfsLoop_term {n : ℕ} {edges : List (List ℕ)}
    (hedges : ∀ l ∈ edges, ∀ w ∈ l, w < n) (hlen : n ≤ edges.length) :
    ∀ (fuel : ℕ) (st : BfsState), BfsOk n st →
      st.dist.count (-1) + st.queue.length ≤ fuel →
      ∃ st2, bfsLoop edges fuel st = some st2 := by
  intro fuel
  induction fuel with
  | zero =>
    intro st _ hm
    have hq : st.queue = [] := by
      have := List.length_eq_zero.mp (by omega : st.queue.length = 0)
      exact this
    refine ⟨st, ?_⟩
    rw [bfsLoop, hq]
  | succ fuel ih =>
    intro st hok hm
    rcases hqe : st.queue with _ | ⟨v, rest⟩
    · refine ⟨st, ?_⟩
      rw [bfsLoop, hqe]
    · have hok1 : BfsOk n { st with queue := rest, stack := st.stack ++ [v] } := by
        obtain ⟨h1, h2, h3⟩ := hok
        refine ⟨h1, h2, ?_⟩
        intro x hx
        exact h3 x (by rw [hqe]; exact List.mem_cons_of_mem _ hx)
      obtain ⟨hok2, hm2⟩ := relaxNeighbors_spec hedges v hok1
      have hmle : (relaxNeighbors edges v
          { st with queue := rest, stack := st.stack ++ [v] }).dist.count (-1) +
          (relaxNeighbors edges v
            { st with queue := rest, stack := st.stack ++ [v] }).queue.length ≤ fuel := by
        rw [hm2]
        have : st.queue.length = rest.length + 1 := by rw [hqe]; rfl
        simp only []
        omega
      obtain ⟨st2, hst2⟩ := ih _ hok2 hmle
      have hv : v < n := hok.2.2 v (by rw [hqe]; exact List.mem_cons_self _ _)
      refine ⟨st2, ?_⟩
      rw [bfsLoop, hqe]
      show (if edges.length ≤ v then none
        else bfsLoop edges fuel (relaxNeighbors edges v
          { st with queue := rest, stack := st.stack ++ [v] })) = some st2
      rw [if_neg (by omega : ¬ edges.length ≤ v)]
      exact hst2

/-- The `-1` count of the initial distance vector is exactly `n`. -/
theorem count_init_dist : ∀ (s n : ℕ), s ≤ n →
    (List.insertIdx s 0 (List.replicate n (-1 : ℤ))).count (-1) = n := by
  intro s
  induction s with
  | zero =>
    intro n _
    simp [List.count_cons, List.count_replicate]
  | succ s ih =>
    intro n hn
    cases n with
    | zero => omega
    | succ n =>
      rw [List.replicate_succ, List.insertIdx_succ_cons, List.count_cons]
      rw [ih n (by omega)]
      simp

/-- Claim C10: for an adjacency structure with one list per node
(`edges.length = n`) whose entries are in range, and an in-range source,
the single-source Brandes run terminates without panicking (no
out-of-bounds `edges[v]` access, queue empties within the pop budget)
and returns a vector with one entry per node, all nonnegative, and `0`
at the source. -/
theorem C10_theorem (n : ℕ) (edges : List (List ℕ)) (s : ℕ)
    (hedges : ∀ l ∈ edges, ∀ w ∈ l, w < n) (hlen : edges.length = n)
    (hs : s < n) :
    ∃ l, centrality n edges s = some l ∧ l.length = n ∧
      (∀ x ∈ l, 0 ≤ x) ∧ l.getD s 0 = 0 := by
  have hsn : s ≤ n := le_of_lt hs
  have hlenrep : (List.replicate n (-1 : ℤ)).length = n := by simp
  have hok : BfsOk n (initState n s) := by
    refine ⟨?_, ?_, ?_⟩
    · show (List.insertIdx s 0 (List.replicate n (-1 : ℤ))).length = n + 1
      rw [List.length_insertIdx s _ (by omega)]
      omega
    · intro i
      show -1 ≤ (List.insertIdx s 0 (List.replicate n (-1 : ℤ))).getD i 0
      rcases lt_or_le i (List.insertIdx s 0 (List.replicate n (-1 : ℤ))).length with hi | hi
      · rw [List.getD_eq_getElem _ _ hi]
        have hmem : (List.insertIdx s 0 (List.replicate n (-1 : ℤ)))[i] ∈
            List.insertIdx s 0 (List.replicate n (-1 : ℤ)) := List.getElem_mem hi
        rcases (List.mem_insertIdx (by omega)).mp hmem with h | h
        · omega
        · rw [List.eq_of_mem_replicate h]
      · rw [List.getD_eq_default _ _ hi]
        omega
    · intro v hv
      show v < n
      have : v = s := List.mem_singleton.mp hv
      omega
  have hminit : (initState n s).dist.count (-1) + (initState n s).queue.length ≤ n + 1 := by
    show (List.insertIdx s 0 (List.replicate n (-1 : ℤ))).count (-1) + [s].length ≤ n + 1
    rw [count_init_dist s n hsn]
    simp
  obtain ⟨st2, hst2⟩ := bfsLoop_term hedges (le_of_eq hlen.symm) (n + 1) (initState n s) hok
    hminit
  have hcent : centrality n edges s =
      some ((st2.stack.reverse.foldl (accumStep st2.sigma st2.pred s)
        (List.replicate n 0, List.replicate n 0)).2) := by
    rw [centrality, hst2]
    rfl
  obtain ⟨hl1, hl2, hl3⟩ := centrality_post hcent
  exact ⟨_, hcent, hl1, hl2, hl3⟩

/-- Witness for C10: the 3-node path from source `0`. -/
theorem C10_witness :
    ∃ l, centrality 3 [[1], [0, 2], [1]] 0 = some l ∧ l.length = 3 ∧
      (∀ x ∈ l, 0 ≤ x) ∧ l.getD 0 0 = 0 :=
  C10_theorem 3 [[1], [0, 2], [1]] 0 (by decide) (by decide) (by decide)

/-- Full specification of the greedy funding loop: funded peers form a
prefix of the sampled order; the `i`-th funded peer receives
`min(remaining_budget, chan_funds)` where the remaining budget is the
start budget less all earlier allocations, and never less than
`min_chan_funds`; and if the loop discarded candidates, the next
allocation would have fallen below `min_chan_funds`. -/
theorem allocate_spec (min_chan_funds chan_funds : ℕ) (token : TokenType)
    (addrs : ℕ → List MultiAddr) :
    ∀ (peers : List (ℕ × ℚ)) (avail : ℕ),
      (allocate min_chan_funds chan_funds token addrs avail peers).map
          OpenChannelCmd.peer =
        (peers.map Prod.fst).take
          (allocate min_chan_funds chan_funds token addrs avail peers).length ∧
      (∀ c ∈ allocate min_chan_funds chan_funds token addrs avail peers,
        min_chan_funds ≤ c.funds ∧ c.funds ≤ chan_funds ∧
          c.addresses = addrs c.peer) ∧
      (∀ i : ℕ,
        i < (allocate min_chan_funds chan_funds token addrs avail peers).length →
        ((allocate min_chan_funds chan_funds token addrs avail peers).getD i
            default).funds =
          min (avail -
            (((allocate min_chan_funds chan_funds token addrs avail peers).take i).map
              OpenChannelCmd.funds).sum) chan_funds) ∧
      ((allocate min_chan_funds chan_funds token addrs avail peers).length <
          peers.length →
        min (avail -
          ((allocate min_chan_funds chan_funds token addrs avail peers).map
            OpenChannelCmd.funds).sum) chan_funds < min_chan_funds) := by
  intro peers
  induction peers with
  | nil =>
    intro avail
    exact ⟨rfl, by simp [allocate], by simp [allocate], by simp [allocate]⟩
  | cons ps rest ih =>
    intro avail
    rcases ps with ⟨p, s⟩
    by_cases hf : min avail chan_funds < min_chan_funds
    · have hempty : allocate min_chan_funds chan_funds token addrs avail ((p, s) :: rest)
          = [] := by
        rw [allocate, if_pos hf]
      refine ⟨?_, ?_, ?_, ?_⟩ <;> rw [hempty]
      · rfl
      · simp
      · simp
      · intro _
        simpa using hf
    · have hcons : allocate min_chan_funds chan_funds token addrs avail ((p, s) :: rest)
          = ⟨p, min avail chan_funds, token, addrs p⟩ ::
            allocate min_chan_funds chan_funds token addrs
              (avail - min avail chan_funds) rest := by
        rw [allocate, if_neg hf]
      obtain ⟨ih1, ih2, ih3, ih4⟩ := ih (avail - min avail chan_funds)
      refine ⟨?_, ?_, ?_, ?_⟩ <;> rw [hcons]
      · simp only [List.map_cons, List.length_cons, List.take_succ_cons]
        rw [ih1]
      · intro c hc
        rcases List.mem_cons.mp hc with hc' | hc'
        · subst hc'
          exact ⟨le_of_not_lt hf, min_le_right _ _, rfl⟩
        · exact ih2 c hc'
      · intro i hi
        cases i with
        | zero =>
          simp only [List.take_zero, List.map_nil, List.sum_nil, Nat.sub_zero,
            List.getD_cons_zero]
        | succ i =>
          rw [List.length_cons] at hi
          have := ih3 i (by omega)
          simp only [List.getD_cons_succ, List.take_succ_cons, List.map_cons,
            List.sum_cons]
          rw [this]
          have hle : min avail chan_funds ≤ avail := min_le_left _ _
          congr 1
          omega
      · intro hlt
        simp only [List.length_cons] at hlt
        have := ih4 (by omega)
        simp only [List.map_cons, List.sum_cons]
        have hle : min avail chan_funds ≤ avail := min_le_left _ _
        have heq : avail - (min avail chan_funds +
            ((allocate min_chan_funds chan_funds token addrs
              (avail - min avail chan_funds) rest).map OpenChannelCmd.funds).sum)
            = (avail - min avail chan_funds) -
              ((allocate min_chan_funds chan_funds token addrs
                (avail - min avail chan_funds) rest).map OpenChannelCmd.funds).sum := by
          omega
        rw [heq]
        exact this

/-- Claim C2: the spec's concrete scenario — budget 100, min 30, max 40,
empty pending set, three eligible equally-scored candidates and enough
slots — funds exactly two candidates at 40 each (the third is discarded
when the remaining 20 falls below 30) and the pending set gains exactly
two entries; and in general the funding loop allocates
`min(remaining_budget, min(max_chan_funds, starting_budget))` per sampled
peer in order, decrementing the budget, stopping once the next allocation
would drop below `min_chan_funds` (see `allocate_spec` restated here). -/
theorem C2_theorem :
    (open_channels ⟨TokenType.ckb, [], 10, 30, 40⟩ 99 ∅ (fun _ => 0) (fun _ => 1)
        (fun _ => false) 100 5
        [⟨1, [⟨11, none⟩], 0, []⟩, ⟨2, [⟨12, none⟩], 0, []⟩, ⟨3, [⟨13, none⟩], 0, []⟩]
        [] =
      OpenChannelsResult.done (insert 2 (insert 1 ∅))
        [⟨1, 40, TokenType.ckb, [⟨11, none⟩]⟩, ⟨2, 40, TokenType.ckb, [⟨12, none⟩]⟩]
        [⟨1, 40, TokenType.ckb, [⟨11, none⟩]⟩, ⟨2, 40, TokenType.ckb, [⟨12, none⟩]⟩]) ∧
    ((insert 2 (insert 1 (∅ : Finset ℕ))).card = 2) ∧
    (∀ (min_chan_funds chan_funds : ℕ) (token : TokenType)
        (addrs : ℕ → List MultiAddr) (peers : List (ℕ × ℚ)) (avail : ℕ),
      (∀ i : ℕ,
        i < (allocate min_chan_funds chan_funds token addrs avail peers).length →
        ((allocate min_chan_funds chan_funds token addrs avail peers).getD i
            default).funds =
          min (avail -
            (((allocate min_chan_funds chan_funds token addrs avail peers).take i).map
              OpenChannelCmd.funds).sum) chan_funds) ∧
      ((allocate min_chan_funds chan_funds token addrs avail peers).length <
          peers.length →
        min (avail -
          ((allocate min_chan_funds chan_funds token addrs avail peers).map
            OpenChannelCmd.funds).sum) chan_funds < min_chan_funds)) := by
  refine ⟨by decide, by decide, ?_⟩
  intro min_chan_funds chan_funds token addrs peers avail
  obtain ⟨-, -, h3, h4⟩ := allocate_spec min_chan_funds chan_funds token addrs peers avail
  exact ⟨h3, h4⟩

/-- Witness for C2's general clause at the concrete scenario: the first
allocation is `min(100 - 0, 40) = 40`, and with two allocations made and
a third candidate left, `min(100 - 80, 40) = 20 < 30`. -/
theorem C2_witness :
    ((allocate 30 40 TokenType.ckb (fun _ => []) 100
        [((1 : ℕ), (1 : ℚ)), (2, 1), (3, 1)]).getD 0 default).funds =
      min (100 - ((((allocate 30 40 TokenType.ckb (fun _ => []) 100
        [((1 : ℕ), (1 : ℚ)), (2, 1), (3, 1)]).take 0).map
          OpenChannelCmd.funds).sum)) 40 ∧
    min (100 - ((allocate 30 40 TokenType.ckb (fun _ => []) 100
        [((1 : ℕ), (1 : ℚ)), (2, 1), (3, 1)]).map OpenChannelCmd.funds).sum) 40 < 30 :=
  ⟨(C2_theorem.2.2 30 40 TokenType.ckb (fun _ => [])
      [((1 : ℕ), (1 : ℚ)), (2, 1), (3, 1)] 100).1 0 (by decide),
   (C2_theorem.2.2 30 40 TokenType.ckb (fun _ => [])
      [((1 : ℕ), (1 : ℚ)), (2, 1), (3, 1)] 100).2 (by decide)⟩

/-- Every index the sampling loop emits is in range. -/
theorem drawLoop_lt (rng : ℕ → ℕ) : ∀ (k : ℕ) (w : List ℚ) (t : ℕ)
    (is : List ℕ), drawLoop rng k w t = some is → ∀ i ∈ is, i < w.length := by
  intro k
  induction k with
  | zero =>
    intro w t is h i hi
    simp only [drawLoop, Option.some.injEq] at h
    subst h
    cases hi
  | succ k ih =>
    intro w t is h i hi
    simp only [drawLoop] at h
    split_ifs at h with h1 h2
    obtain ⟨is2, his2, rfl⟩ := Option.map_eq_some'.mp h
    have hpos : 0 < (posIdxs w).length := by omega
    have hmod : rng t % (posIdxs w).length < (posIdxs w).length := Nat.mod_lt _ hpos
    rcases List.mem_cons.mp hi with hi' | hi'
    · subst hi'
      have hmem : (posIdxs w).getD (rng t % (posIdxs w).length) 0 ∈ posIdxs w := by
        rw [List.getD_eq_getElem _ _ hmod]
        exact List.getElem_mem _
      exact (mem_posIdxs.mp hmem).1
    · have := ih _ _ _ his2 i hi'
      rwa [List.length_set] at this

/-- A successful `choice_n` only returns input items. -/
theorem choice_n_mem {α : Type} [Inhabited α] {rng : ℕ → ℕ}
    {items : List (α × ℚ)} {n : ℕ} {l : List (α × ℚ)}
    (h : choice_n rng items n = some l) : ∀ x ∈ l, x ∈ items := by
  rw [choice_n] at h
  split_ifs at h with h1 h2 h3 h4
  · cases h
    exact fun x hx => hx
  obtain ⟨is, his, rfl⟩ := Option.map_eq_some'.mp h
  intro x hx
  obtain ⟨i, hi, rfl⟩ := List.mem_map.mp hx
  have hlt : i < items.length := by
    have := drawLoop_lt rng n (items.map Prod.snd) 0 is his i hi
    rwa [List.length_map] at this
  rw [List.getD_eq_getElem _ _ hlt]
  exact List.getElem_mem _

/-- Every funded command's peer comes from the sampled list. -/
theorem allocate_mem (min_chan_funds chan_funds : ℕ) (token : TokenType)
    (addrs : ℕ → List MultiAddr) :
    ∀ (peers : List (ℕ × ℚ)) (avail : ℕ)
      (c : OpenChannelCmd),
      c ∈ allocate min_chan_funds chan_funds token addrs avail peers →
      c.peer ∈ peers.map Prod.fst := by
  intro peers
  induction peers with
  | nil =>
    intro avail c hc
    simp [allocate] at hc
  | cons ps rest ih =>
    intro avail c hc
    rcases ps with ⟨p, s⟩
    rw [allocate] at hc
    split_ifs at hc
    · cases hc
    · rcases List.mem_cons.mp hc with hc' | hc'
      · subst hc'
        exact List.mem_cons_self _ _
      · exact List.mem_cons_of_mem _ (ih _ c hc')

/-- Every spawned command is one of the funded commands. -/
theorem spawnCmds_sub (cmds : List OpenChannelCmd) (pending : Finset ℕ) :
    ∀ c ∈ (spawnCmds pending cmds).2, c ∈ cmds := by
  unfold spawnCmds
  refine foldl_preserves_mem
    (P := fun acc : Finset ℕ × List OpenChannelCmd => ∀ c ∈ acc.2, c ∈ cmds)
    spawnStep cmds ?_ (pending, []) (by simp)
  intro acc cmd hcmd hP c hc
  unfold spawnStep at hc
  by_cases hmem : cmd.peer ∈ acc.1
  · rw [if_pos hmem] at hc
    exact hP c hc
  · rw [if_neg hmem] at hc
    rcases List.mem_append.mp hc with hc' | hc'
    · exact hP c hc'
    · rw [List.mem_singleton.mp hc']
      exact hcmd

/-- Provenance of a combined score entry: it is either one of the
per-candidate heuristic entries or an external entry for a non-ignored
decodable address. -/
theorem addExternals_fst_mem (ignored : Finset ℕ) :
    ∀ (exts : List MultiAddr) (start : List (ℕ × ℚ) × (ℕ → List MultiAddr))
      (q : ℕ) (x : ℚ), (q, x) ∈ (addExternals ignored exts start).1 →
      (q, x) ∈ start.1 ∨
        (q ∉ ignored ∧ x = 1 ∧ ∃ a ∈ exts, get_peer_id_from_addr a = some q) := by
  intro exts
  induction exts with
  | nil =>
    intro start q x h
    exact Or.inl h
  | cons b rest ih =>
    intro start q x h
    rw [addExternals, List.foldl_cons] at h
    rcases hb : get_peer_id_from_addr b with _ | pb
    · simp only [hb] at h
      rcases ih _ q x h with h2 | ⟨h2, h3, a, ha, hd⟩
      · exact Or.inl h2
      · exact Or.inr ⟨h2, h3, a, List.mem_cons_of_mem _ ha, hd⟩
    · simp only [hb] at h
      by_cases hig : pb ∈ ignored
      · rw [if_pos hig] at h
        rcases ih _ q x h with h2 | ⟨h2, h3, a, ha, hd⟩
        · exact Or.inl h2
        · exact Or.inr ⟨h2, h3, a, List.mem_cons_of_mem _ ha, hd⟩
      · rw [if_neg hig] at h
        rcases ih _ q x h with h2 | ⟨h2, h3, a, ha, hd⟩
        · rcases List.mem_append.mp h2 with h3 | h3
          · exact Or.inl h3
          · have := List.mem_singleton.mp h3
            injection this with hq hx
            subst hq
            subst hx
            exact Or.inr ⟨hig, rfl, b, List.mem_cons_self _ _, hb⟩
        · exact Or.inr ⟨h2, h3, a, List.mem_cons_of_mem _ ha, hd⟩

/-- A candidate peer produced by the graph loop is not ignored. -/
theorem candidatePeers_not_ignored {cfg : AgentConfig} {ignored : Finset ℕ}
    {chan_funds : ℕ} {graphNodes : List NodeInfo} {p : ℕ}
    (h : p ∈ candidatePeers cfg ignored chan_funds graphNodes) : p ∉ ignored := by
  unfold candidatePeers at h
  rw [List.mem_dedup] at h
  obtain ⟨nd, hnd, rfl⟩ := List.mem_map.mp h
  have he := (List.mem_filter.mp hnd).2
  unfold eligibleNode at he
  rw [Bool.and_eq_true, Bool.and_eq_true] at he
  exact of_decide_eq_true he.1.1

/-- No peer in the combined score list is ignored. -/
theorem scores_not_ignored {cfg : AgentConfig} {ignored : Finset ℕ}
    {chan_funds : ℕ} {graphNodes : List NodeInfo} {score : ℕ → ℚ}
    {q : ℕ} {x : ℚ}
    (h : (q, x) ∈ (scoresAndAddrs cfg ignored chan_funds graphNodes score).1) :
    q ∉ ignored := by
  unfold scoresAndAddrs at h
  rcases addExternals_fst_mem ignored cfg.external_nodes _ q x h with h2 | ⟨h2, -, -⟩
  · obtain ⟨pp, hpp, hpq⟩ := List.mem_map.mp h2
    injection hpq with hq hx
    subst hq
    exact candidatePeers_not_ignored hpp
  · exact h2

/-- Claim C3: a peer that is pending when candidate filtering begins
(after the reconciliation prologue) is in the ignore set, and no funded
command — hence no spawned open action — targets it in that cycle. -/
theorem C3_theorem (cfg : AgentConfig) (selfId : ℕ) (pending : Finset ℕ)
    (rng : ℕ → ℕ) (score : ℕ → ℚ) (failOf : ℕ → Bool)
    (available_funds num : ℕ) (graphNodes : List NodeInfo)
    (local_channels : List Channel) (p : ℕ)
    (hp : p ∈ reconcile pending local_channels) :
    p ∈ ignoredSet cfg selfId (reconcile pending local_channels) local_channels ∧
    ∀ pend2 cmds spawned,
      open_channels cfg selfId pending rng score failOf available_funds num
          graphNodes local_channels =
        OpenChannelsResult.done pend2 cmds spawned →
      (∀ c ∈ cmds, c.peer ≠ p) ∧ ∀ c ∈ spawned, c.peer ≠ p := by
  have hig : p ∈ ignoredSet cfg selfId (reconcile pending local_channels)
      local_channels := by
    unfold ignoredSet
    rw [Finset.mem_union, Finset.mem_union]
    exact Or.inl (Or.inr hp)
  refine ⟨hig, ?_⟩
  intro pend2 cmds spawned h
  simp only [open_channels] at h
  by_cases hc1 : min cfg.max_chan_funds available_funds < cfg.min_chan_funds
  · rw [if_pos hc1] at h
    cases h
  rw [if_neg hc1] at h
  by_cases hc2 : cfg.max_pending ≤ (reconcile pending local_channels).card
  · rw [if_pos hc2] at h
    injection h with hpd hcmds hspawned
    subst hcmds
    subst hspawned
    exact ⟨by simp, by simp⟩
  rw [if_neg hc2] at h
  · rcases hch : choice_n rng (scoresAndAddrs cfg
        (ignoredSet cfg selfId (reconcile pending local_channels) local_channels)
        (min cfg.max_chan_funds available_funds) graphNodes score).1
        (min num (cfg.max_pending - (reconcile pending local_channels).card))
      with _ | chosen
    · rw [hch] at h
      cases h
    · rw [hch] at h
      injection h with hpd2 hcmds hspawned
      subst hcmds
      subst hspawned
      have hc : ∀ c ∈ allocate cfg.min_chan_funds
          (min cfg.max_chan_funds available_funds) cfg.token
          (scoresAndAddrs cfg
            (ignoredSet cfg selfId (reconcile pending local_channels) local_channels)
            (min cfg.max_chan_funds available_funds) graphNodes score).2
          available_funds chosen, c.peer ≠ p := by
        intro c hc hcp
        have hmem := allocate_mem _ _ _ _ _ _ _ hc
        obtain ⟨⟨q, x⟩, hq, hq2⟩ := List.mem_map.mp hmem
        have hq2' : q = c.peer := hq2
        have hin := choice_n_mem hch _ hq
        have hni := scores_not_ignored hin
        rw [hq2', hcp] at hni
        exact hni hig
      refine ⟨hc, ?_⟩
      intro c hcsp
      exact hc c (spawnCmds_sub _ _ c hcsp)

/-- Witness for C3: with pending peer 50 and a graph containing nodes 1
and 50, peer 50 is ignored and the cycle's only funded command targets
peer 1, not 50. -/
theorem C3_witness :
    (50 ∈ ignoredSet ⟨TokenType.ckb, [], 10, 30, 40⟩ 99
      (reconcile {50} []) []) ∧
    ((⟨1, 40, TokenType.ckb, [⟨11, none⟩]⟩ : OpenChannelCmd).peer ≠ 50) :=
  ⟨(C3_theorem ⟨TokenType.ckb, [], 10, 30, 40⟩ 99 {50} (fun _ => 0) (fun _ => 1)
      (fun _ => false) 100 5
      [⟨1, [⟨11, none⟩], 0, []⟩, ⟨50, [⟨12, none⟩], 0, []⟩] [] 50 (by decide)).1,
   ((C3_theorem ⟨TokenType.ckb, [], 10, 30, 40⟩ 99 {50} (fun _ => 0) (fun _ => 1)
      (fun _ => false) 100 5
      [⟨1, [⟨11, none⟩], 0, []⟩, ⟨50, [⟨12, none⟩], 0, []⟩] [] 50 (by decide)).2
      (insert 1 {50}) [⟨1, 40, TokenType.ckb, [⟨11, none⟩]⟩]
      [⟨1, 40, TokenType.ckb, [⟨11, none⟩]⟩] (by decide)).1
      ⟨1, 40, TokenType.ckb, [⟨11, none⟩]⟩ (by decide)⟩

/-- Unfolding one step of the external pass. -/
theorem addExternals_cons (ignored : Finset ℕ) (b : MultiAddr)
    (rest : List MultiAddr) (start : List (ℕ × ℚ) × (ℕ → List MultiAddr)) :
    addExternals ignored (b :: rest) start =
      addExternals ignored rest
        (match get_peer_id_from_addr b with
         | none => start
         | some q => if q ∈ ignored then start
            else (start.1 ++ [(q, 1)], fun r => if r = q then [b] else start.2 r)) :=
  rfl

/-- Each external pass step adds one score entry per non-ignored
decodable address, so entry multiplicities add up. -/
theorem addExternals_countP (ignored : Finset ℕ) (p : ℕ) (hp : p ∉ ignored) :
    ∀ (exts : List MultiAddr) (start : List (ℕ × ℚ) × (ℕ → List MultiAddr)),
      (addExternals ignored exts start).1.countP (fun it => it.1 == p) =
        start.1.countP (fun it => it.1 == p) +
          exts.countP (fun b => get_peer_id_from_addr b == some p) := by
  intro exts
  induction exts with
  | nil =>
    intro start
    simp [addExternals]
  | cons b rest ih =>
    intro start
    rw [addExternals_cons, List.countP_cons]
    rcases hb : get_peer_id_from_addr b with _ | q
    · simp only [hb]
      rw [ih start]
      simp
    · simp only [hb]
      by_cases hig : q ∈ ignored
      · rw [if_pos hig]
        rw [ih start]
        have hqp : ¬ (q = p) := fun he => hp (he ▸ hig)
        simp [hqp]
      · rw [if_neg hig]
        rw [ih (start.1 ++ [(q, 1)], fun r => if r = q then [b] else start.2 r)]
        simp only [List.countP_append, List.countP_cons, List.countP_nil]
        by_cases hqp : q = p
        · subst hqp
          simp
          omega
        · simp [hqp]

/-- If no remaining external address decodes to `p`, the external pass
leaves `p`'s address list alone. -/
theorem addExternals_addr_untouched (ignored : Finset ℕ) (p : ℕ) :
    ∀ (exts : List MultiAddr) (start : List (ℕ × ℚ) × (ℕ → List MultiAddr)),
      (∀ b ∈ exts, ¬ get_peer_id_from_addr b = some p) →
      (addExternals ignored exts start).2 p = start.2 p := by
  intro exts
  induction exts with
  | nil =>
    intro start _
    rfl
  | cons b rest ih =>
    intro start hb
    rw [addExternals_cons]
    rcases hdb : get_peer_id_from_addr b with _ | q
    · simp only [hdb]
      exact ih start (fun c hc => hb c (List.mem_cons_of_mem _ hc))
    · simp only [hdb]
      have hqp : q ≠ p := by
        intro he
        exact hb b (List.mem_cons_self _ _) (he ▸ hdb)
      by_cases hig : q ∈ ignored
      · rw [if_pos hig]
        exact ih start (fun c hc => hb c (List.mem_cons_of_mem _ hc))
      · rw [if_neg hig]
        rw [ih _ (fun c hc => hb c (List.mem_cons_of_mem _ hc))]
        simp [hqp.symm]

/-- When exactly one external address decodes to a non-ignored peer `p`,
the external pass replaces `p`'s address book entry with that single
address. -/
theorem addExternals_addr (ignored : Finset ℕ) (p : ℕ) (a : MultiAddr)
    (hp : p ∉ ignored) :
    ∀ (exts : List MultiAddr) (start : List (ℕ × ℚ) × (ℕ → List MultiAddr)),
      exts.filter (fun b => get_peer_id_from_addr b == some p) = [a] →
      (addExternals ignored exts start).2 p = [a] := by
  intro exts
  induction exts with
  | nil =>
    intro start h
    cases h
  | cons b rest ih =>
    intro start h
    rw [List.filter_cons] at h
    rw [addExternals_cons]
    by_cases hpb : (get_peer_id_from_addr b == some (p : ℕ)) = true
    · rw [if_pos hpb] at h
      injection h with hba hrest
      subst hba
      have hdb : get_peer_id_from_addr b = some p := by
        simpa using hpb
      simp only [hdb, if_neg hp]
      rw [addExternals_addr_untouched ignored p rest _ ?_]
      · simp
      · intro c hc hcp
        have : (get_peer_id_from_addr c == some (p : ℕ)) = true := by
          simp [hcp]
        have hmem : c ∈ rest.filter (fun d => get_peer_id_from_addr d == some p) :=
          List.mem_filter.mpr ⟨hc, this⟩
        rw [hrest] at hmem
        cases hmem
    · rw [if_neg hpb] at h
      rcases hdb : get_peer_id_from_addr b with _ | q
      · simp only [hdb]
        exact ih start h
      · simp only [hdb]
        have hqp : q ≠ p := by
          intro he
          subst he
          rw [hdb] at hpb
          simp at hpb
        by_cases hig : q ∈ ignored
        · rw [if_pos hig]
          exact ih start h
        · rw [if_neg hig]
          exact ih _ h

/-- The spawned actions of one cycle target pairwise distinct peers: a
command whose peer was already marked pending — including one marked
earlier in the same loop — is skipped. -/
theorem spawnCmds_nodup (cmds : List OpenChannelCmd) (pending : Finset ℕ) :
    ((spawnCmds pending cmds).2.map OpenChannelCmd.peer).Nodup := by
  have h := foldl_preserves
    (P := fun acc : Finset ℕ × List OpenChannelCmd =>
      (∀ c ∈ acc.2, c.peer ∈ acc.1) ∧ (acc.2.map OpenChannelCmd.peer).Nodup)
    spawnStep ?_ cmds (pending, [])
    (by simp)
  · exact h.2
  · intro acc cmd ⟨hin, hnd⟩
    unfold spawnStep
    by_cases hmem : cmd.peer ∈ acc.1
    · rw [if_pos hmem]
      exact ⟨hin, hnd⟩
    · rw [if_neg hmem]
      refine ⟨?_, ?_⟩
      · intro c hc
        rcases List.mem_append.mp hc with hc' | hc'
        · exact Finset.mem_insert_of_mem (hin c hc')
        · rw [List.mem_singleton.mp hc']
          exact Finset.mem_insert_self _ _
      · rw [List.map_append, List.nodup_append]
        refine ⟨hnd, by simp, ?_⟩
        intro y hy hy'
        simp only [List.map_cons, List.map_nil, List.mem_singleton] at hy'
        subst hy'
        obtain ⟨c, hc, hcp⟩ := List.mem_map.mp hy
        rw [← hcp] at hmem
        exact hmem (hin c hc)

/-- Multiplicity of a candidate peer in the per-candidate heuristic
score entries is exactly one (the candidate set is deduplicated). -/
theorem scores0_countP {cfg : AgentConfig} {ignored : Finset ℕ}
    {chan_funds : ℕ} {graphNodes : List NodeInfo} (score : ℕ → ℚ) {p : ℕ}
    (hp : p ∈ candidatePeers cfg ignored chan_funds graphNodes) :
    ((candidatePeers cfg ignored chan_funds graphNodes).map
      (fun q => (q, score q))).countP (fun it => it.1 == p) = 1 := by
  rw [List.countP_map]
  have hnd : (candidatePeers cfg ignored chan_funds graphNodes).Nodup :=
    List.nodup_dedup _
  have := List.count_eq_one_of_mem hnd hp
  rw [← this]
  rfl

/-- Claim C9: a peer that is both an eligible graph candidate and a
(non-ignored) external node gets two score entries, its address book
entry is replaced by the external address, the spawned actions of any
cycle target pairwise distinct peers (so at most one action for that
peer), and — concretely — the sampler can draw such a peer twice, the
budget being decremented at each draw, while only one action is spawned. -/
theorem C9_theorem (cfg : AgentConfig) (ignored : Finset ℕ) (chan_funds : ℕ)
    (graphNodes : List NodeInfo) (score : ℕ → ℚ) (p : ℕ) (a : MultiAddr)
    (hp : p ∈ candidatePeers cfg ignored chan_funds graphNodes)
    (hexts : cfg.external_nodes.filter
      (fun b => get_peer_id_from_addr b == some p) = [a]) :
    ((scoresAndAddrs cfg ignored chan_funds graphNodes score).1.countP
      (fun it => it.1 == p) = 2) ∧
    ((scoresAndAddrs cfg ignored chan_funds graphNodes score).2 p = [a]) ∧
    (∀ (pending : Finset ℕ) (cmds : List OpenChannelCmd),
      ((spawnCmds pending cmds).2.map OpenChannelCmd.peer).Nodup) ∧
    (open_channels cfg9 99 ∅ rng9 (fun _ => 1) (fun _ => false) 100 2 nodes9 [] =
      OpenChannelsResult.done (insert 1 ∅)
        [⟨1, 10, TokenType.ckb, [⟨100, some 1⟩]⟩,
         ⟨1, 10, TokenType.ckb, [⟨100, some 1⟩]⟩]
        [⟨1, 10, TokenType.ckb, [⟨100, some 1⟩]⟩]) := by
  have hpnig : p ∉ ignored := candidatePeers_not_ignored hp
  refine ⟨?_, ?_, fun pending cmds => spawnCmds_nodup cmds pending, ?_⟩
  · unfold scoresAndAddrs
    rw [addExternals_countP ignored p hpnig]
    rw [scores0_countP score hp]
    have hone : cfg.external_nodes.countP
        (fun b => get_peer_id_from_addr b == some p) = 1 := by
      rw [List.countP_eq_length_filter, hexts]
      rfl
    rw [hone]
  · unfold scoresAndAddrs
    exact addExternals_addr ignored p a hpnig cfg.external_nodes _ hexts
  · have hchoice : choice_n rng9
        [((1 : ℕ), (1 : ℚ)), (2, 1), (3, 1), (1, 1)] 2 =
        some [(1, 1), (1, 1)] := by
      norm_num [choice_n, rng9, drawLoop, posIdxs, List.range_succ]
    simp only [open_channels]
    rw [if_neg (by decide), if_neg (by decide)]
    rw [show (scoresAndAddrs cfg9 (ignoredSet cfg9 99 (reconcile ∅ []) [])
        (min cfg9.max_chan_funds 100) nodes9 (fun _ => 1)).1 =
        [((1 : ℕ), (1 : ℚ)), (2, 1), (3, 1), (1, 1)] from by decide]
    rw [show min 2 (cfg9.max_pending - (reconcile (∅ : Finset ℕ) []).card) = 2
      from by decide]
    rw [hchoice]
    decide

/-- Witness for C9: peer 1 of the concrete scenario is both a graph
candidate and the single external node — it receives two score entries
and the external address replaces its graph addresses. -/
theorem C9_witness :
    ((scoresAndAddrs cfg9 (ignoredSet cfg9 99 ∅ []) 10 nodes9 (fun _ => 1)).1.countP
      (fun it => it.1 == 1) = 2) ∧
    ((scoresAndAddrs cfg9 (ignoredSet cfg9 99 ∅ []) 10 nodes9 (fun _ => 1)).2 1 =
      [⟨100, some 1⟩]) :=
  ⟨(C9_theorem cfg9 (ignoredSet cfg9 99 ∅ []) 10 nodes9 (fun _ => 1) 1
      ⟨100, some 1⟩ (by decide) (by decide)).1,
   (C9_theorem cfg9 (ignoredSet cfg9 99 ∅ []) 10 nodes9 (fun _ => 1) 1
      ⟨100, some 1⟩ (by decide) (by decide)).2.1⟩

end Autopilot
